import Mathlib

/-!
Verification of the day 10 solver of advent-of-code-2025 (`src/day10.rs`):
a breadth-first shortest-transition search (`StateMachine`) and a minimal
non-negative integer combination solver (`ILPSolver`), orchestrated by
`Machine`.

The Rust `HashSet` fields are embedded as duplicate-free `List`s used only
through membership and insertion (`HashSet::insert` adds an element when
absent, as `List.insert` does).  The only observable nondeterminism of the
Rust code is the iteration order of `unprocessed_states` (a `Vec` collected
from a `HashSet` difference); it is modelled by an explicit order oracle: a
function producing, for every machine value, the list in which the frontier
is traversed.  `FrontierOrder` states that the oracle yields exactly the
elements of `known_states \ visited_states` — every `HashSet` iteration
order satisfies it.
-/

set_option autoImplicit false
set_option maxRecDepth 4096

namespace Day10

/-- Embeds the Rust struct `StateMachine<S>` of `src/day10.rs`.  The two
`HashSet<S>` fields become lists used as sets. -/
structure StateMachine (S : Type) where
  transitions : List (S → S)
  target_state : S
  known_states : List S
  visited_states : List S
  transition_count : Nat

variable {S : Type} [DecidableEq S]

/-- Embeds `StateMachine::MAX_TRANSITIONS`. -/
def MAX_TRANSITIONS : Nat := 10000

/-- Embeds `StateMachine::new`. -/
def StateMachine.new (transitions : List (S → S)) (target_state initial_state : S) :
    StateMachine S :=
  { transitions := transitions
    target_state := target_state
    known_states := [initial_state]
    visited_states := []
    transition_count := 0 }

/-- Embeds `StateMachine::all_states_from`. -/
def StateMachine.all_states_from (m : StateMachine S) (starting_state : S) : List S :=
  m.transitions.map (fun t => t starting_state)

/-- Embeds `StateMachine::visit_state`: returns the early-return value
(`Some(count)` when the target was newly generated) together with the
updated machine. -/
def StateMachine.visit_state (m : StateMachine S) (state : S) : Option Nat × StateMachine S :=
  if state ∈ m.visited_states then (none, m)
  else if state = m.target_state then (some m.transition_count, m)
  else (none, { m with known_states := m.known_states.insert state })

/-- Embeds the inner `for new_state in new_states` loop of
`StateMachine::step`, with its early return. -/
def StateMachine.visitStates (m : StateMachine S) : List S → Option Nat × StateMachine S
  | [] => (none, m)
  | s :: rest =>
    match m.visit_state s with
    | (some c, m') => (some c, m')
    | (none, m') => m'.visitStates rest

/-- Embeds the outer `for starting_state in states_to_process` loop of
`StateMachine::step`: processes the snapshotted frontier in the given
order, inserting each processed state into `visited_states`. -/
def StateMachine.processFrontier (m : StateMachine S) : List S → Option Nat × StateMachine S
  | [] => (none, m)
  | s :: rest =>
    match m.visitStates (m.all_states_from s) with
    | (some c, m') => (some c, m')
    | (none, m') =>
      StateMachine.processFrontier
        { m' with visited_states := m'.visited_states.insert s } rest

/-- Embeds `StateMachine::unprocessed_states` (the `HashSet` difference
`known_states − visited_states`; the Rust `Vec` additionally fixes an
iteration order, supplied by the oracle). -/
def StateMachine.unprocessed_states (m : StateMachine S) : List S :=
  m.known_states.filter (fun s => s ∉ m.visited_states)

/-- Embeds `StateMachine::step` given the frontier traversal order: the
frontier is snapshotted, the transition counter incremented, then every
frontier state is processed. -/
def StateMachine.stepWith (m : StateMachine S) (frontier : List S) :
    Option Nat × StateMachine S :=
  StateMachine.processFrontier
    { m with transition_count := m.transition_count + 1 } frontier

/-- Embeds `StateMachine::step`, with the `HashSet` iteration order of
`unprocessed_states` supplied by the oracle. -/
def StateMachine.step (oracle : StateMachine S → List S) (m : StateMachine S) :
    Option Nat × StateMachine S :=
  m.stepWith (oracle m)

/-- A frontier-order oracle is valid when it lists exactly the elements of
`known_states − visited_states` — any `HashSet` iteration order does. -/
def FrontierOrder (oracle : StateMachine S → List S) : Prop :=
  ∀ m : StateMachine S, ∀ s : S, s ∈ oracle m ↔ s ∈ m.unprocessed_states

/-- The canonical frontier order: the difference list itself. -/
def canonicalOrder (m : StateMachine S) : List S :=
  m.unprocessed_states

theorem canonicalOrder_valid : FrontierOrder (canonicalOrder (S := S)) :=
  fun _ _ => Iff.rfl

/-- The reversed frontier order: a second valid iteration order. -/
def reversedOrder (m : StateMachine S) : List S :=
  m.unprocessed_states.reverse

theorem reversedOrder_valid : FrontierOrder (reversedOrder (S := S)) := by
  intro m s
  rw [reversedOrder, List.mem_reverse]

theorem visit_state_transition_count (m : StateMachine S) (s : S) :
    (m.visit_state s).2.transition_count = m.transition_count := by
  unfold StateMachine.visit_state
  split <;> [rfl; split <;> rfl]

theorem visitStates_transition_count (m : StateMachine S) (l : List S) :
    (m.visitStates l).2.transition_count = m.transition_count := by
  induction l generalizing m with
  | nil => rfl
  | cons s rest ih =>
    rw [StateMachine.visitStates]
    rcases h : m.visit_state s with ⟨o, m'⟩
    have hc : m'.transition_count = m.transition_count := by
      have h2 := visit_state_transition_count m s
      rw [h] at h2
      exact h2
    cases o with
    | some c => simpa using hc
    | none => simpa using (hc ▸ ih m')

theorem processFrontier_transition_count (m : StateMachine S) (l : List S) :
    (m.processFrontier l).2.transition_count = m.transition_count := by
  induction l generalizing m with
  | nil => rfl
  | cons s rest ih =>
    rw [StateMachine.processFrontier]
    rcases h : m.visitStates (m.all_states_from s) with ⟨o, m'⟩
    have hc : m'.transition_count = m.transition_count := by
      have h2 := visitStates_transition_count m (m.all_states_from s)
      rw [h] at h2
      exact h2
    cases o with
    | some c => simpa using hc
    | none =>
      simpa using (hc ▸ ih { m' with visited_states := m'.visited_states.insert s })

theorem stepWith_transition_count (m : StateMachine S) (l : List S) :
    (m.stepWith l).2.transition_count = m.transition_count + 1 := by
  unfold StateMachine.stepWith
  exact processFrontier_transition_count _ l

/-- The error message produced by the `format!` call in
`StateMachine::min_transition_count`. -/
def boundErrMsg : String :=
  "Maximum transition count (" ++ toString MAX_TRANSITIONS ++ ") exceeded"

theorem boundErrMsg_eq : boundErrMsg = "Maximum transition count (10000) exceeded" := by
  rfl

/-- Embeds the `loop` of `StateMachine::min_transition_count`: check the
bound, run one frontier pass, return its count on a match, otherwise repeat.
Termination holds because each pass increments `transition_count`. -/
def StateMachine.min_transition_count (oracle : StateMachine S → List S)
    (m : StateMachine S) : Except String Nat :=
  if m.transition_count > MAX_TRANSITIONS then
    .error boundErrMsg
  else
    match h : m.step oracle with
    | (some count, _) => .ok count
    | (none, m') => m'.min_transition_count oracle
termination_by MAX_TRANSITIONS + 1 - m.transition_count
decreasing_by
  have hc : m'.transition_count = m.transition_count + 1 := by
    have h2 := stepWith_transition_count m (oracle m)
    rw [StateMachine.step] at h
    rw [h] at h2
    exact h2
  simp only [hc]
  omega

/-! ### Reachability of the implicit transition graph -/

/-- The states one transition application away from `s` (the mathematical
content of `all_states_from`, phrased on a bare transition list). -/
def genList (ts : List (S → S)) (s : S) : List S :=
  ts.map (fun t => t s)

/-- The states reachable from `init` by applying at most `k` transitions
from `ts` (as a list with possible duplicates, used only through
membership). -/
def reachWithin (ts : List (S → S)) (init : S) : Nat → List S
  | 0 => [init]
  | k + 1 =>
    reachWithin ts init k ++ (reachWithin ts init k).bind (fun s => genList ts s)

/-- The states the search has fully processed after `k` frontier passes. -/
def reachVisited (ts : List (S → S)) (init : S) : Nat → List S
  | 0 => []
  | k + 1 => reachWithin ts init k

/-- Membership in the `k`-th frontier image: some state of the `k`-th
frontier (reachable within `k`, not yet processed) generates `x`. -/
def frontierGen (ts : List (S → S)) (init : S) (k : Nat) (x : S) : Prop :=
  ∃ s, (s ∈ reachWithin ts init k ∧ s ∉ reachVisited ts init k) ∧ x ∈ genList ts s

theorem mem_reachWithin_succ {ts : List (S → S)} {init : S} {k : Nat} {x : S} :
    x ∈ reachWithin ts init (k + 1) ↔
      x ∈ reachWithin ts init k ∨ ∃ s ∈ reachWithin ts init k, x ∈ genList ts s := by
  rw [reachWithin]
  simp [List.mem_append, List.mem_bind]

theorem init_mem_reachWithin (ts : List (S → S)) (init : S) (k : Nat) :
    init ∈ reachWithin ts init k := by
  induction k with
  | zero => simp [reachWithin]
  | succ k ih => exact mem_reachWithin_succ.mpr (Or.inl ih)

theorem reachWithin_mono (ts : List (S → S)) (init : S) {j k : Nat} (h : j ≤ k)
    {x : S} (hx : x ∈ reachWithin ts init j) : x ∈ reachWithin ts init k := by
  induction k with
  | zero =>
    have hj : j = 0 := Nat.le_zero.mp h
    rw [← hj]
    exact hx
  | succ k ih =>
    rcases Nat.lt_or_ge j (k + 1) with h' | h'
    · exact mem_reachWithin_succ.mpr (Or.inl (ih (Nat.lt_succ_iff.mp h')))
    · have hjk : j = k + 1 := Nat.le_antisymm h h'
      rw [← hjk]
      exact hx

theorem reachVisited_subset (ts : List (S → S)) (init : S) (k : Nat)
    {x : S} (hx : x ∈ reachVisited ts init k) : x ∈ reachWithin ts init k := by
  cases k with
  | zero => simp [reachVisited] at hx
  | succ k =>
    rw [reachVisited] at hx
    exact reachWithin_mono ts init (Nat.le_succ k) hx

theorem gen_mem_reachWithin_succ {ts : List (S → S)} {init : S} {k : Nat} {s x : S}
    (hs : s ∈ reachWithin ts init k) (hx : x ∈ genList ts s) :
    x ∈ reachWithin ts init (k + 1) :=
  mem_reachWithin_succ.mpr (Or.inr ⟨s, hs, hx⟩)

theorem frontierGen_mem_succ {ts : List (S → S)} {init : S} {k : Nat} {x : S}
    (h : frontierGen ts init k x) : x ∈ reachWithin ts init (k + 1) := by
  rcases h with ⟨s, ⟨hs, _⟩, hx⟩
  exact gen_mem_reachWithin_succ hs hx

/-- One BFS layer: the states reachable within `k + 1` steps are those
reachable within `k` steps together with the successors of the `k`-th
frontier. -/
theorem reachWithin_succ_frontier {ts : List (S → S)} {init : S} {k : Nat} {x : S} :
    x ∈ reachWithin ts init (k + 1) ↔
      x ∈ reachWithin ts init k ∨ frontierGen ts init k x := by
  constructor
  · intro hx
    rcases mem_reachWithin_succ.mp hx with hx | ⟨s, hs, hgen⟩
    · exact Or.inl hx
    · by_cases hv : s ∈ reachVisited ts init k
      · cases k with
        | zero => simp [reachVisited] at hv
        | succ j =>
          rw [reachVisited] at hv
          exact Or.inl (gen_mem_reachWithin_succ hv hgen)
      · exact Or.inr ⟨s, ⟨hs, hv⟩, hgen⟩
  · rintro (hx | hx)
    · exact mem_reachWithin_succ.mpr (Or.inl hx)
    · exact frontierGen_mem_succ hx

/-- Applies a list of transitions in order, starting from `s`. -/
def applySeq (l : List (S → S)) (s : S) : S :=
  l.foldl (fun a t => t a) s

theorem applySeq_append (l₁ l₂ : List (S → S)) (s : S) :
    applySeq (l₁ ++ l₂) s = applySeq l₂ (applySeq l₁ s) := by
  simp [applySeq, List.foldl_append]

/-- Membership in `reachWithin` is exactly reachability by a transition
sequence of bounded length. -/
theorem mem_reachWithin_iff {ts : List (S → S)} {init : S} {k : Nat} {x : S} :
    x ∈ reachWithin ts init k ↔
      ∃ l : List (S → S), (∀ t ∈ l, t ∈ ts) ∧ l.length ≤ k ∧ applySeq l init = x := by
  constructor
  · intro hx
    induction k generalizing x with
    | zero =>
      rw [reachWithin, List.mem_singleton] at hx
      exact ⟨[], by simp, by simp, by simp [applySeq, hx]⟩
    | succ k ih =>
      rcases mem_reachWithin_succ.mp hx with hx | ⟨s, hs, hgen⟩
      · rcases ih hx with ⟨l, hl, hlen, happ⟩
        exact ⟨l, hl, hlen.trans (Nat.le_succ k), happ⟩
      · rcases ih hs with ⟨l, hl, hlen, happ⟩
        rcases List.mem_map.mp hgen with ⟨t, ht, hts⟩
        refine ⟨l ++ [t], ?_, ?_, ?_⟩
        · intro t' ht'
          rcases List.mem_append.mp ht' with h' | h'
          · exact hl t' h'
          · rw [List.mem_singleton.mp h']
            exact ht
        · simp only [List.length_append, List.length_singleton]
          omega
        · rw [applySeq_append, happ]
          simpa [applySeq] using hts
  · rintro ⟨l, hl, hlen, happ⟩
    induction l using List.reverseRecOn generalizing x k with
    | nil =>
      simp only [applySeq, List.foldl_nil] at happ
      rw [← happ]
      exact init_mem_reachWithin ts init k
    | append_singleton l t ih =>
      have hlt : ∀ t' ∈ l, t' ∈ ts := fun t' ht' => hl t' (List.mem_append_left _ ht')
      have htts : t ∈ ts := hl t (List.mem_append_right _ (List.mem_singleton_self t))
      have hk : 1 ≤ k := by
        simp only [List.length_append, List.length_singleton] at hlen
        omega
      have hprev : applySeq l init ∈ reachWithin ts init (k - 1) := by
        apply ih hlt
        · simp only [List.length_append, List.length_singleton] at hlen
          omega
        · rfl
      have hgen : x ∈ genList ts (applySeq l init) := by
        rw [← happ, applySeq_append]
        simp only [genList, List.mem_map]
        exact ⟨t, htts, rfl⟩
      have h0 := gen_mem_reachWithin_succ hprev hgen
      have h1 : k - 1 + 1 = k := by omega
      rw [h1] at h0
      exact h0

/-! ### Behaviour of one frontier pass -/

theorem all_states_from_eq (m : StateMachine S) (s : S) :
    m.all_states_from s = genList m.transitions s := rfl

theorem visit_state_eq_of_visited {m : StateMachine S} {s : S}
    (h : s ∈ m.visited_states) : m.visit_state s = (none, m) := by
  rw [StateMachine.visit_state, if_pos h]

theorem visit_state_eq_of_target {m : StateMachine S} {s : S}
    (h1 : s ∉ m.visited_states) (h2 : s = m.target_state) :
    m.visit_state s = (some m.transition_count, m) := by
  rw [StateMachine.visit_state, if_neg h1, if_pos h2]

theorem visit_state_eq_of_new {m : StateMachine S} {s : S}
    (h1 : s ∉ m.visited_states) (h2 : s ≠ m.target_state) :
    m.visit_state s = (none, { m with known_states := m.known_states.insert s }) := by
  rw [StateMachine.visit_state, if_neg h1, if_neg h2]

theorem visitStates_preserve (m : StateMachine S) (l : List S) :
    (m.visitStates l).2.transitions = m.transitions ∧
      (m.visitStates l).2.target_state = m.target_state ∧
      (m.visitStates l).2.visited_states = m.visited_states := by
  induction l generalizing m with
  | nil => exact ⟨rfl, rfl, rfl⟩
  | cons s rest ih =>
    rw [StateMachine.visitStates]
    by_cases h1 : s ∈ m.visited_states
    · rw [visit_state_eq_of_visited h1]
      exact ih m
    · by_cases h2 : s = m.target_state
      · rw [visit_state_eq_of_target h1 h2]
        exact ⟨rfl, rfl, rfl⟩
      · rw [visit_state_eq_of_new h1 h2]
        exact ih _

/-- The inner loop finds the target exactly when the target occurs among
the generated states and is not in `visited_states`; the count returned is
the machine's current `transition_count`. -/
theorem visitStates_fst_eq (m : StateMachine S) (l : List S) :
    (m.visitStates l).1 =
      if m.target_state ∈ l ∧ m.target_state ∉ m.visited_states
      then some m.transition_count else none := by
  induction l generalizing m with
  | nil => simp [StateMachine.visitStates]
  | cons s rest ih =>
    rw [StateMachine.visitStates]
    by_cases h1 : s ∈ m.visited_states
    · rw [visit_state_eq_of_visited h1]
      rw [ih m]
      by_cases hv : m.target_state ∈ m.visited_states
      · simp [hv]
      · have hns : m.target_state ≠ s := fun he => hv (he ▸ h1)
        simp [hv, hns]
    · by_cases h2 : s = m.target_state
      · rw [visit_state_eq_of_target h1 h2]
        have hmem : m.target_state ∈ s :: rest := by
          rw [← h2]
          exact List.mem_cons_self s rest
        simp only [hmem, true_and, if_pos (h2 ▸ h1)]
      · rw [visit_state_eq_of_new h1 h2]
        rw [ih _]
        have hns : m.target_state ≠ s := fun he => h2 he.symm
        simp [hns]

/-- When the inner loop does not find the target, `known_states` gains
exactly the generated states that are neither visited nor the target. -/
theorem visitStates_known_of_none {m : StateMachine S} {l : List S}
    (h : (m.visitStates l).1 = none) :
    ∀ x, x ∈ (m.visitStates l).2.known_states ↔
      x ∈ m.known_states ∨ (x ∈ l ∧ x ∉ m.visited_states ∧ x ≠ m.target_state) := by
  induction l generalizing m with
  | nil => simp [StateMachine.visitStates]
  | cons s rest ih =>
    rw [StateMachine.visitStates] at h ⊢
    by_cases h1 : s ∈ m.visited_states
    · rw [visit_state_eq_of_visited h1] at h ⊢
      intro x
      rw [ih h x]
      constructor
      · rintro (hx | hx)
        · exact Or.inl hx
        · exact Or.inr ⟨List.mem_cons_of_mem s hx.1, hx.2⟩
      · rintro (hx | ⟨hx1, hx2, hx3⟩)
        · exact Or.inl hx
        · rcases List.mem_cons.mp hx1 with he | hr
          · exact absurd (he ▸ h1) hx2
          · exact Or.inr ⟨hr, hx2, hx3⟩
    · by_cases h2 : s = m.target_state
      · rw [visit_state_eq_of_target h1 h2] at h
        simp at h
      · rw [visit_state_eq_of_new h1 h2] at h ⊢
        intro x
        rw [ih h x]
        simp only [List.mem_insert_iff, List.mem_cons]
        constructor
        · rintro (hx | hx)
          · rcases hx with he | hk
            · exact Or.inr ⟨Or.inl he, he ▸ h1, he ▸ h2⟩
            · exact Or.inl hk
          · exact Or.inr ⟨Or.inr hx.1, hx.2⟩
        · rintro (hx | ⟨he | hr, hx2, hx3⟩)
          · exact Or.inl (Or.inr hx)
          · exact Or.inl (Or.inl he)
          · exact Or.inr ⟨hr, hx2, hx3⟩

theorem processFrontier_cons_some {m m' : StateMachine S} {s : S} {rest : List S} {c : Nat}
    (h : m.visitStates (m.all_states_from s) = (some c, m')) :
    m.processFrontier (s :: rest) = (some c, m') := by
  rw [StateMachine.processFrontier, h]

theorem processFrontier_cons_none {m m' : StateMachine S} {s : S} {rest : List S}
    (h : m.visitStates (m.all_states_from s) = (none, m')) :
    m.processFrontier (s :: rest) =
      StateMachine.processFrontier
        { m' with visited_states := m'.visited_states.insert s } rest := by
  rw [StateMachine.processFrontier, h]

theorem processFrontier_preserve (m : StateMachine S) (l : List S) :
    (m.processFrontier l).2.transitions = m.transitions ∧
      (m.processFrontier l).2.target_state = m.target_state := by
  induction l generalizing m with
  | nil => exact ⟨rfl, rfl⟩
  | cons s rest ih =>
    rcases hv : m.visitStates (m.all_states_from s) with ⟨o, m'⟩
    have hp1 : m'.transitions = m.transitions := by
      have h0 := (visitStates_preserve m (m.all_states_from s)).1
      rw [hv] at h0
      exact h0
    have hp2 : m'.target_state = m.target_state := by
      have h0 := (visitStates_preserve m (m.all_states_from s)).2.1
      rw [hv] at h0
      exact h0
    cases o with
    | some c =>
      rw [processFrontier_cons_some hv]
      exact ⟨hp1, hp2⟩
    | none =>
      rw [processFrontier_cons_none hv]
      have h2 := ih { m' with visited_states := m'.visited_states.insert s }
      exact ⟨h2.1.trans hp1, h2.2.trans hp2⟩

/-- If the outer loop does not return, every processed frontier state is
moved into `visited_states` and nothing else enters it. -/
theorem processFrontier_visited_of_none {m : StateMachine S} {l : List S}
    (h : (m.processFrontier l).1 = none) :
    ∀ x, x ∈ (m.processFrontier l).2.visited_states ↔
      x ∈ m.visited_states ∨ x ∈ l := by
  induction l generalizing m with
  | nil => simp [StateMachine.processFrontier]
  | cons s rest ih =>
    rcases hv : m.visitStates (m.all_states_from s) with ⟨o, m'⟩
    have hp3 : m'.visited_states = m.visited_states := by
      have h0 := (visitStates_preserve m (m.all_states_from s)).2.2
      rw [hv] at h0
      exact h0
    cases o with
    | some c =>
      rw [processFrontier_cons_some hv] at h
      simp at h
    | none =>
      rw [processFrontier_cons_none hv] at h ⊢
      intro x
      rw [ih h x]
      simp only [List.mem_insert_iff, hp3, List.mem_cons]
      tauto

/-- If the outer loop does not return, `known_states` gains exactly the
states generated from the frontier, apart from the target (which is never
inserted), provided the frontier and the visited set are already known. -/
theorem processFrontier_known_of_none {m : StateMachine S} {l : List S}
    (h : (m.processFrontier l).1 = none)
    (hfk : ∀ s ∈ l, s ∈ m.known_states)
    (hvk : ∀ x ∈ m.visited_states, x ∈ m.known_states) :
    ∀ x, x ∈ (m.processFrontier l).2.known_states ↔
      x ∈ m.known_states ∨
        ((∃ s ∈ l, x ∈ genList m.transitions s) ∧ x ≠ m.target_state) := by
  induction l generalizing m with
  | nil => simp [StateMachine.processFrontier]
  | cons s rest ih =>
    rcases hv : m.visitStates (m.all_states_from s) with ⟨o, m'⟩
    have hp1 : m'.transitions = m.transitions := by
      have h0 := (visitStates_preserve m (m.all_states_from s)).1
      rw [hv] at h0
      exact h0
    have hp2 : m'.target_state = m.target_state := by
      have h0 := (visitStates_preserve m (m.all_states_from s)).2.1
      rw [hv] at h0
      exact h0
    have hp3 : m'.visited_states = m.visited_states := by
      have h0 := (visitStates_preserve m (m.all_states_from s)).2.2
      rw [hv] at h0
      exact h0
    cases o with
    | some c =>
      rw [processFrontier_cons_some hv] at h
      simp at h
    | none =>
      rw [processFrontier_cons_none hv] at h ⊢
      have hknown : ∀ x, x ∈ m'.known_states ↔
          x ∈ m.known_states ∨
            (x ∈ genList m.transitions s ∧ x ∉ m.visited_states ∧ x ≠ m.target_state) := by
        intro x
        have hv1 : (m.visitStates (m.all_states_from s)).1 = none := by rw [hv]
        have h0 := visitStates_known_of_none hv1 x
        rw [hv, all_states_from_eq] at h0
        exact h0
      have hvis : ∀ x, x ∈ m'.visited_states.insert s ↔ x = s ∨ x ∈ m.visited_states := by
        intro x
        simp [List.mem_insert_iff, hp3]
      have hfk₂ : ∀ s' ∈ rest, s' ∈ m'.known_states := by
        intro s' hs'
        rw [hknown s']
        exact Or.inl (hfk s' (List.mem_cons_of_mem s hs'))
      have hvk₂ : ∀ x ∈ m'.visited_states.insert s, x ∈ m'.known_states := by
        intro x hx
        rw [hknown x]
        rcases (hvis x).mp hx with he | hm
        · exact Or.inl (he ▸ hfk s (List.mem_cons_self s rest))
        · exact Or.inl (hvk x hm)
      intro x
      have hihx : x ∈ (StateMachine.processFrontier
            { m' with visited_states := m'.visited_states.insert s } rest).2.known_states ↔
          x ∈ m'.known_states ∨
            ((∃ s' ∈ rest, x ∈ genList m'.transitions s') ∧ x ≠ m'.target_state) :=
        ih h hfk₂ hvk₂ x
      rw [hihx, hknown x, hp1, hp2]
      constructor
      · rintro ((hx | ⟨hg, hnv, hnt⟩) | ⟨⟨s', hs', hg⟩, hnt⟩)
        · exact Or.inl hx
        · exact Or.inr ⟨⟨s, List.mem_cons_self s rest, hg⟩, hnt⟩
        · exact Or.inr ⟨⟨s', List.mem_cons_of_mem s hs', hg⟩, hnt⟩
      · rintro (hx | ⟨⟨s', hs', hg⟩, hnt⟩)
        · exact Or.inl (Or.inl hx)
        · rcases List.mem_cons.mp hs' with he | hr
          · by_cases hxv : x ∈ m.visited_states
            · exact Or.inl (Or.inl (hvk x hxv))
            · exact Or.inl (Or.inr ⟨he ▸ hg, hxv, hnt⟩)
          · exact Or.inr ⟨⟨s', hr, hg⟩, hnt⟩

/-- If every frontier state generates no new target occurrence (either the
target is not generated from it, or the target is already visited), the
pass does not return. -/
theorem processFrontier_fst_none {m : StateMachine S} {l : List S}
    (h : ∀ s ∈ l, m.target_state ∉ genList m.transitions s ∨
          m.target_state ∈ m.visited_states) :
    (m.processFrontier l).1 = none := by
  induction l generalizing m with
  | nil => simp [StateMachine.processFrontier]
  | cons s rest ih =>
    rcases hv : m.visitStates (m.all_states_from s) with ⟨o, m'⟩
    have hp1 : m'.transitions = m.transitions := by
      have h0 := (visitStates_preserve m (m.all_states_from s)).1
      rw [hv] at h0
      exact h0
    have hp2 : m'.target_state = m.target_state := by
      have h0 := (visitStates_preserve m (m.all_states_from s)).2.1
      rw [hv] at h0
      exact h0
    have hp3 : m'.visited_states = m.visited_states := by
      have h0 := (visitStates_preserve m (m.all_states_from s)).2.2
      rw [hv] at h0
      exact h0
    have hfst : o = if m.target_state ∈ genList m.transitions s ∧
        m.target_state ∉ m.visited_states then some m.transition_count else none := by
      have h0 := visitStates_fst_eq m (m.all_states_from s)
      rw [hv, all_states_from_eq] at h0
      exact h0
    have ho : o = none := by
      rw [hfst]
      rcases h s (List.mem_cons_self s rest) with hng | hvv
      · simp [hng]
      · simp [hvv]
    subst ho
    rw [processFrontier_cons_none hv]
    apply ih
    intro s' hs'
    rcases h s' (List.mem_cons_of_mem s hs') with hg | hg
    · left
      show m'.target_state ∉ genList m'.transitions s'
      rw [hp1, hp2]
      exact hg
    · right
      show m'.target_state ∈ m'.visited_states.insert s
      rw [hp2, List.mem_insert_iff, hp3]
      exact Or.inr hg

/-- If the target is generated from the head of the frontier and is not
visited, the pass returns the current count at once. -/
theorem processFrontier_fst_found_head {m : StateMachine S} {s : S} (rest : List S)
    (hnv : m.target_state ∉ m.visited_states)
    (hg : m.target_state ∈ genList m.transitions s) :
    (m.processFrontier (s :: rest)).1 = some m.transition_count := by
  rcases hv : m.visitStates (m.all_states_from s) with ⟨o, m'⟩
  have hfst : o = if m.target_state ∈ genList m.transitions s ∧
      m.target_state ∉ m.visited_states then some m.transition_count else none := by
    have h0 := visitStates_fst_eq m (m.all_states_from s)
    rw [hv, all_states_from_eq] at h0
    exact h0
  have ho : o = some m.transition_count := by
    rw [hfst, if_pos ⟨hg, hnv⟩]
  subst ho
  rw [processFrontier_cons_some hv]

/-- If the target is generated from some frontier state, is not visited,
and does not itself occur in the frontier, the pass returns the current
count — in whatever order the frontier is traversed. -/
theorem processFrontier_fst_found {m : StateMachine S} {l : List S}
    (hnv : m.target_state ∉ m.visited_states)
    (hnf : m.target_state ∉ l)
    (hex : ∃ s ∈ l, m.target_state ∈ genList m.transitions s) :
    (m.processFrontier l).1 = some m.transition_count := by
  induction l generalizing m with
  | nil => simp at hex
  | cons s rest ih =>
    by_cases hg : m.target_state ∈ genList m.transitions s
    · exact processFrontier_fst_found_head rest hnv hg
    · rcases hv : m.visitStates (m.all_states_from s) with ⟨o, m'⟩
      have hp1 : m'.transitions = m.transitions := by
        have h0 := (visitStates_preserve m (m.all_states_from s)).1
        rw [hv] at h0
        exact h0
      have hp2 : m'.target_state = m.target_state := by
        have h0 := (visitStates_preserve m (m.all_states_from s)).2.1
        rw [hv] at h0
        exact h0
      have hp3 : m'.visited_states = m.visited_states := by
        have h0 := (visitStates_preserve m (m.all_states_from s)).2.2
        rw [hv] at h0
        exact h0
      have hc : m'.transition_count = m.transition_count := by
        have h0 := visitStates_transition_count m (m.all_states_from s)
        rw [hv] at h0
        exact h0
      have hfst : o = if m.target_state ∈ genList m.transitions s ∧
          m.target_state ∉ m.visited_states then some m.transition_count else none := by
        have h0 := visitStates_fst_eq m (m.all_states_from s)
        rw [hv, all_states_from_eq] at h0
        exact h0
      have ho : o = none := by
        rw [hfst]
        simp [hg]
      subst ho
      rw [processFrontier_cons_none hv]
      have hres := ih (m := { m' with visited_states := m'.visited_states.insert s })
        (by
          show m'.target_state ∉ m'.visited_states.insert s
          rw [hp2, List.mem_insert_iff, hp3]
          rintro (he | hm)
          · exact hnf (he ▸ List.mem_cons_self s rest)
          · exact hnv hm)
        (by
          show m'.target_state ∉ rest
          rw [hp2]
          exact fun hm => hnf (List.mem_cons_of_mem s hm))
        (by
          show ∃ s' ∈ rest, m'.target_state ∈ genList m'.transitions s'
          rw [hp2, hp1]
          rcases hex with ⟨s', hs', hg'⟩
          rcases List.mem_cons.mp hs' with he | hr
          · exact absurd (he ▸ hg') hg
          · exact ⟨s', hr, hg'⟩)
      rw [hres]
      show some m'.transition_count = some m.transition_count
      rw [hc]

/-! ### The BFS stage invariant -/

/-- The machine state after `k` completed frontier passes that did not
return: the counter equals `k`, `known_states` holds exactly the states
reachable within `k` transitions, `visited_states` those within `k - 1`,
and — unless the target is the initial state — the target has not been
reached yet (otherwise an earlier pass would have returned). -/
def atStage (ts : List (S → S)) (init target : S) (k : Nat) (m : StateMachine S) : Prop :=
  m.transitions = ts ∧ m.target_state = target ∧ m.transition_count = k ∧
    (∀ s, s ∈ m.known_states ↔ s ∈ reachWithin ts init k) ∧
    (∀ s, s ∈ m.visited_states ↔ s ∈ reachVisited ts init k) ∧
    (target ≠ init → target ∉ reachWithin ts init k)

theorem atStage_new (ts : List (S → S)) (init target : S) :
    atStage ts init target 0 (StateMachine.new ts target init) := by
  refine ⟨rfl, rfl, rfl, ?_, ?_, ?_⟩
  · intro s
    simp [StateMachine.new, reachWithin]
  · intro s
    simp [StateMachine.new, reachVisited]
  · intro hne
    rw [reachWithin, List.mem_singleton]
    exact hne

section StageLemmas

variable {ts : List (S → S)} {init target : S} {oracle : StateMachine S → List S}

theorem frontier_mem_of_atStage (hor : FrontierOrder oracle) {k : Nat} {m : StateMachine S}
    (h : atStage ts init target k m) :
    ∀ s, s ∈ oracle m ↔
      s ∈ reachWithin ts init k ∧ s ∉ reachVisited ts init k := by
  intro s
  rw [hor m s, StateMachine.unprocessed_states, List.mem_filter,
    h.2.2.2.1 s, decide_eq_true_eq, h.2.2.2.2.1 s]

/-- A pass in which the target is not newly generated (or is already
visited) returns nothing and advances the stage invariant. -/
theorem step_none_of_atStage (hor : FrontierOrder oracle) {k : Nat} {m : StateMachine S}
    (h : atStage ts init target k m)
    (hnf : ¬ frontierGen ts init k target ∨ target ∈ reachVisited ts init k) :
    (m.step oracle).1 = none ∧ atStage ts init target (k + 1) (m.step oracle).2 := by
  obtain ⟨htr, htg, hct, hkn, hvs, htc⟩ := h
  have hfr := frontier_mem_of_atStage hor ⟨htr, htg, hct, hkn, hvs, htc⟩
  rw [StateMachine.step, StateMachine.stepWith]
  set m₁ : StateMachine S := { m with transition_count := m.transition_count + 1 } with hm₁
  have h₁tr : m₁.transitions = ts := htr
  have h₁tg : m₁.target_state = target := htg
  have h₁kn : m₁.known_states = m.known_states := rfl
  have h₁vs : m₁.visited_states = m.visited_states := rfl
  have hnone : (m₁.processFrontier (oracle m)).1 = none := by
    apply processFrontier_fst_none
    intro s hs
    rw [h₁tr, h₁tg, h₁vs]
    rcases hnf with hnf | hnf
    · left
      intro hgen
      exact hnf ⟨s, (hfr s).mp hs, hgen⟩
    · right
      rw [hvs target]
      exact hnf
  refine ⟨hnone, ?_, ?_, ?_, ?_, ?_, ?_⟩
  · exact (processFrontier_preserve m₁ (oracle m)).1.trans h₁tr
  · exact (processFrontier_preserve m₁ (oracle m)).2.trans h₁tg
  · have hc := processFrontier_transition_count m₁ (oracle m)
    rw [hc]
    show m.transition_count + 1 = k + 1
    rw [hct]
  · intro x
    have hfk : ∀ s ∈ oracle m, s ∈ m₁.known_states := by
      intro s hs
      rw [h₁kn, hkn s]
      exact ((hfr s).mp hs).1
    have hvk : ∀ y ∈ m₁.visited_states, y ∈ m₁.known_states := by
      intro y hy
      rw [h₁kn, hkn y]
      rw [h₁vs, hvs y] at hy
      exact reachVisited_subset ts init k hy
    rw [processFrontier_known_of_none hnone hfk hvk x, h₁kn, hkn x, h₁tr, h₁tg]
    rw [reachWithin_succ_frontier]
    constructor
    · rintro (hx | ⟨⟨s, hs, hgen⟩, hnt⟩)
      · exact Or.inl hx
      · exact Or.inr ⟨s, (hfr s).mp hs, hgen⟩
    · rintro (hx | hx)
      · exact Or.inl hx
      · by_cases hxr : x ∈ reachWithin ts init k
        · exact Or.inl hxr
        · right
          constructor
          · rcases hx with ⟨s, hs, hgen⟩
            exact ⟨s, (hfr s).mpr hs, hgen⟩
          · intro he
            subst he
            rcases hnf with hnf | hnf
            · exact hnf hx
            · exact hxr (reachVisited_subset ts init k hnf)
  · intro x
    rw [processFrontier_visited_of_none hnone x, h₁vs, hvs x]
    show _ ↔ x ∈ reachWithin ts init k
    constructor
    · rintro (hx | hx)
      · exact reachVisited_subset ts init k hx
      · exact ((hfr x).mp hx).1
    · intro hx
      by_cases hxv : x ∈ reachVisited ts init k
      · exact Or.inl hxv
      · exact Or.inr ((hfr x).mpr ⟨hx, hxv⟩)
  · intro hne
    have hr := htc hne
    rw [reachWithin_succ_frontier]
    rintro (hx | hx)
    · exact hr hx
    · rcases hnf with hnf | hnf
      · exact hnf hx
      · exact hr (reachVisited_subset ts init k hnf)

/-- A pass in which the target is newly generated from the frontier
returns the incremented count — whatever the traversal order. -/
theorem step_some_of_atStage (hor : FrontierOrder oracle) {k : Nat} {m : StateMachine S}
    (h : atStage ts init target k m)
    (hf : frontierGen ts init k target)
    (hnv : target ∉ reachVisited ts init k) :
    (m.step oracle).1 = some (k + 1) := by
  obtain ⟨htr, htg, hct, hkn, hvs, htc⟩ := h
  have hfr := frontier_mem_of_atStage hor ⟨htr, htg, hct, hkn, hvs, htc⟩
  rw [StateMachine.step, StateMachine.stepWith]
  set m₁ : StateMachine S := { m with transition_count := m.transition_count + 1 } with hm₁
  have h₁tr : m₁.transitions = ts := htr
  have h₁tg : m₁.target_state = target := htg
  have h₁vs : m₁.visited_states = m.visited_states := rfl
  have h₁ct : m₁.transition_count = k + 1 := by
    show m.transition_count + 1 = k + 1
    rw [hct]
  have hnvm : m₁.target_state ∉ m₁.visited_states := by
    rw [h₁tg, h₁vs, hvs target]
    exact hnv
  by_cases htf : target ∈ oracle m
  · have htd := (hfr target).mp htf
    by_cases hti : target = init
    · cases k with
      | zero =>
        rcases hx : oracle m with _ | ⟨f₀, fr'⟩
        · rw [hx] at htf
          simp at htf
        · have hf₀ : f₀ ∈ oracle m := by
            rw [hx]
            exact List.mem_cons_self f₀ fr'
          have hf₀d := (hfr f₀).mp hf₀
          have hf₀i : f₀ = init := by
            have h0 := hf₀d.1
            rw [reachWithin, List.mem_singleton] at h0
            exact h0
          have hgen : m₁.target_state ∈ genList m₁.transitions f₀ := by
            rw [h₁tg, h₁tr, hf₀i]
            rcases hf with ⟨s, ⟨hs, _⟩, hgen⟩
            have hsi : s = init := by
              rw [reachWithin, List.mem_singleton] at hs
              exact hs
            exact hsi ▸ hgen
          have h0 := processFrontier_fst_found_head (m := m₁) fr' hnvm hgen
          rw [h0, h₁ct]
      | succ j =>
        exfalso
        apply hnv
        rw [reachVisited, hti]
        exact init_mem_reachWithin ts init j
    · exact absurd htd.1 (htc hti)
  · have h0 := processFrontier_fst_found (m := m₁) (l := oracle m) hnvm
      (by rw [h₁tg]; exact htf)
      (by
        rw [h₁tg, h₁tr]
        rcases hf with ⟨s, hs, hgen⟩
        exact ⟨s, (hfr s).mpr hs, hgen⟩)
    rw [h0, h₁ct]

end StageLemmas


/-! ### Behaviour of the search loop -/

theorem min_transition_count_guard {oracle : StateMachine S → List S} {m : StateMachine S}
    (hb : m.transition_count > MAX_TRANSITIONS) :
    m.min_transition_count oracle = .error boundErrMsg := by
  rw [StateMachine.min_transition_count, if_pos hb]

theorem min_transition_count_found {oracle : StateMachine S → List S} {m : StateMachine S}
    {c : Nat} (hb : ¬ m.transition_count > MAX_TRANSITIONS)
    (hs : (m.step oracle).1 = some c) :
    m.min_transition_count oracle = .ok c := by
  rw [StateMachine.min_transition_count, if_neg hb]
  split
  · next c' m' heq =>
    rw [heq] at hs
    simp only [Option.some.injEq] at hs
    rw [hs]
  · next m' heq =>
    rw [heq] at hs
    simp at hs

theorem min_transition_count_cont {oracle : StateMachine S → List S} {m m' : StateMachine S}
    (hb : ¬ m.transition_count > MAX_TRANSITIONS)
    (hs : m.step oracle = (none, m')) :
    m.min_transition_count oracle = m'.min_transition_count oracle := by
  rw [StateMachine.min_transition_count, if_neg hb]
  split
  · next c' m'' heq =>
    rw [hs] at heq
    simp at heq
  · next m'' heq =>
    rw [hs] at heq
    simp only [Prod.mk.injEq] at heq
    rw [heq.2]

section RunLemmas

variable {ts : List (S → S)} {init target : S} {oracle : StateMachine S → List S}

theorem run_ok_aux (hor : FrontierOrder oracle) {d : Nat}
    (h1 : target ∈ reachWithin ts init d)
    (h2 : target ∉ reachWithin ts init (d - 1))
    (hb : d ≤ MAX_TRANSITIONS + 1) :
    ∀ c k m, atStage ts init target k m → k + c + 1 = d →
      m.min_transition_count oracle = .ok d := by
  intro c
  induction c with
  | zero =>
    intro k m h hk
    have hk' : k = d - 1 := by omega
    have hguard : ¬ m.transition_count > MAX_TRANSITIONS := by
      rw [h.2.2.1]
      omega
    have hf : frontierGen ts init k target := by
      have hd : k + 1 = d := by omega
      have h1' : target ∈ reachWithin ts init (k + 1) := by
        rw [hd]
        exact h1
      rcases reachWithin_succ_frontier.mp h1' with hx | hx
      · exact absurd (hk' ▸ hx) h2
      · exact hx
    have hnv : target ∉ reachVisited ts init k := by
      intro hx
      exact h2 (hk' ▸ reachVisited_subset ts init k hx)
    have hsome := step_some_of_atStage hor h hf hnv
    have hd : k + 1 = d := by omega
    rw [hd] at hsome
    exact min_transition_count_found hguard hsome
  | succ c ih =>
    intro k m h hk
    have hguard : ¬ m.transition_count > MAX_TRANSITIONS := by
      rw [h.2.2.1]
      omega
    have hnf : ¬ frontierGen ts init k target ∨ target ∈ reachVisited ts init k := by
      left
      intro hx
      apply h2
      exact reachWithin_mono ts init (show k + 1 ≤ d - 1 by omega)
        (frontierGen_mem_succ hx)
    obtain ⟨hnone, hstage⟩ := step_none_of_atStage hor h hnf
    rcases hs : m.step oracle with ⟨o, m'⟩
    rw [hs] at hnone
    simp only at hnone
    subst hnone
    have hstage' : atStage ts init target (k + 1) m' := by
      rw [hs] at hstage
      exact hstage
    rw [min_transition_count_cont hguard hs]
    exact ih (k + 1) m' hstage' (by omega)

theorem run_err_aux (hor : FrontierOrder oracle) :
    ∀ c k m, atStage ts init target k m → MAX_TRANSITIONS + 1 = k + c →
      ((target ≠ init ∧ target ∉ reachWithin ts init (MAX_TRANSITIONS + 1)) ∨
        (target = init ∧ 1 ≤ k)) →
      m.min_transition_count oracle = .error boundErrMsg := by
  intro c
  induction c with
  | zero =>
    intro k m h hk _
    apply min_transition_count_guard
    rw [h.2.2.1]
    omega
  | succ c ih =>
    intro k m h hk hcase
    have hguard : ¬ m.transition_count > MAX_TRANSITIONS := by
      rw [h.2.2.1]
      omega
    have hnf : ¬ frontierGen ts init k target ∨ target ∈ reachVisited ts init k := by
      rcases hcase with ⟨hne, hur⟩ | ⟨heq, hk1⟩
      · left
        intro hx
        apply hur
        exact reachWithin_mono ts init (show k + 1 ≤ MAX_TRANSITIONS + 1 by omega)
          (frontierGen_mem_succ hx)
      · right
        rcases Nat.exists_eq_add_of_le hk1 with ⟨j, hj⟩
        rw [hj]
        show target ∈ reachVisited ts init (1 + j)
        have h1j : 1 + j = j + 1 := by omega
        rw [h1j, reachVisited, heq]
        exact init_mem_reachWithin ts init j
    obtain ⟨hnone, hstage⟩ := step_none_of_atStage hor h hnf
    rcases hs : m.step oracle with ⟨o, m'⟩
    rw [hs] at hnone
    simp only at hnone
    subst hnone
    have hstage' : atStage ts init target (k + 1) m' := by
      rw [hs] at hstage
      exact hstage
    rw [min_transition_count_cont hguard hs]
    apply ih (k + 1) m' hstage' (by omega)
    rcases hcase with hcase | hcase
    · exact Or.inl hcase
    · exact Or.inr ⟨hcase.1, by omega⟩

/-- If the target is at graph distance `d ∈ [1, MAX_TRANSITIONS + 1]` from
the initial state (and differs from it), the search returns exactly `d`. -/
theorem run_ok_of_dist (hor : FrontierOrder oracle) (hne : target ≠ init) {d : Nat}
    (h1 : target ∈ reachWithin ts init d)
    (h2 : target ∉ reachWithin ts init (d - 1))
    (hb : d ≤ MAX_TRANSITIONS + 1) :
    (StateMachine.new ts target init).min_transition_count oracle = .ok d := by
  have hd : 1 ≤ d := by
    by_contra h0
    have hd0 : d = 0 := by omega
    rw [hd0, reachWithin, List.mem_singleton] at h1
    exact hne h1
  exact run_ok_aux hor h1 h2 hb (d - 1) 0 (StateMachine.new ts target init)
    (atStage_new ts init target) (by omega)

/-- If the target is not reachable within `MAX_TRANSITIONS + 1` transitions,
the search terminates with the bound-exceeded error. -/
theorem run_err_of_unreachable (hor : FrontierOrder oracle)
    (h : target ∉ reachWithin ts init (MAX_TRANSITIONS + 1)) :
    (StateMachine.new ts target init).min_transition_count oracle = .error boundErrMsg := by
  have hne : target ≠ init := by
    intro he
    apply h
    rw [he]
    exact init_mem_reachWithin ts init (MAX_TRANSITIONS + 1)
  exact run_err_aux hor (MAX_TRANSITIONS + 1) 0 (StateMachine.new ts target init)
    (atStage_new ts init target) (by omega) (Or.inl ⟨hne, h⟩)

/-- If some single transition maps the initial state to the target, the
search returns `1` (also when the target IS the initial state). -/
theorem run_ok_one_of_gen (hor : FrontierOrder oracle)
    (hg : target ∈ genList ts init) :
    (StateMachine.new ts target init).min_transition_count oracle = .ok 1 := by
  have hf : frontierGen ts init 0 target := by
    refine ⟨init, ⟨init_mem_reachWithin ts init 0, ?_⟩, hg⟩
    simp [reachVisited]
  have hnv : target ∉ reachVisited ts init 0 := by
    simp [reachVisited]
  have hsome := step_some_of_atStage hor (atStage_new ts init target) hf hnv
  apply min_transition_count_found ?_ hsome
  show ¬ 0 > MAX_TRANSITIONS
  omega

/-- If the target equals the initial state and no single transition fixes
the initial state, the search never finds the target and errors out: after
the first pass the initial state is visited, and `visit_state` ignores
visited states before comparing with the target. -/
theorem run_err_of_init_eq (hor : FrontierOrder oracle)
    (heq : target = init) (hg : target ∉ genList ts init) :
    (StateMachine.new ts target init).min_transition_count oracle = .error boundErrMsg := by
  have hnf : ¬ frontierGen ts init 0 target ∨ target ∈ reachVisited ts init 0 := by
    left
    rintro ⟨s, ⟨hs, _⟩, hgen⟩
    have hsi : s = init := by
      rw [reachWithin, List.mem_singleton] at hs
      exact hs
    exact hg (hsi ▸ hgen)
  obtain ⟨hnone, hstage⟩ :=
    step_none_of_atStage hor (atStage_new ts init target) hnf
  rcases hs : (StateMachine.new ts target init).step oracle with ⟨o, m'⟩
  rw [hs] at hnone
  simp only at hnone
  subst hnone
  have hstage' : atStage ts init target 1 m' := by
    rw [hs] at hstage
    exact hstage
  rw [min_transition_count_cont (show ¬ 0 > MAX_TRANSITIONS by omega) hs]
  exact run_err_aux hor MAX_TRANSITIONS 1 m' hstage' (by omega)
    (Or.inr ⟨heq, le_refl 1⟩)

end RunLemmas


/-! ### The returned count, pass iteration, and determinism -/

theorem processFrontier_fst_some_count {m : StateMachine S} {l : List S} {c : Nat}
    (h : (m.processFrontier l).1 = some c) : c = m.transition_count := by
  induction l generalizing m with
  | nil => simp [StateMachine.processFrontier] at h
  | cons s rest ih =>
    rcases hv : m.visitStates (m.all_states_from s) with ⟨o, m'⟩
    have hfst : o = if m.target_state ∈ genList m.transitions s ∧
        m.target_state ∉ m.visited_states then some m.transition_count else none := by
      have h0 := visitStates_fst_eq m (m.all_states_from s)
      rw [hv, all_states_from_eq] at h0
      exact h0
    cases o with
    | some c' =>
      rw [processFrontier_cons_some hv] at h
      simp only at h
      have hc' : c' = m.transition_count := by
        by_cases hcond : m.target_state ∈ genList m.transitions s ∧
            m.target_state ∉ m.visited_states
        · rw [if_pos hcond] at hfst
          exact Option.some.inj hfst
        · rw [if_neg hcond] at hfst
          exact absurd hfst (Option.some_ne_none c')
      rw [← Option.some.inj h, hc']
    | none =>
      rw [processFrontier_cons_none hv] at h
      have hc := ih h
      have hcc : m'.transition_count = m.transition_count := by
        have h0 := visitStates_transition_count m (m.all_states_from s)
        rw [hv] at h0
        exact h0
      rw [hc]
      exact hcc

theorem step_fst_some_count {oracle : StateMachine S → List S} {m : StateMachine S} {c : Nat}
    (h : (m.step oracle).1 = some c) : c = m.transition_count + 1 := by
  rw [StateMachine.step, StateMachine.stepWith] at h
  exact processFrontier_fst_some_count h

/-- Any successful result of the loop is the counter value at the finding
pass: it exceeds the counter at entry and never exceeds
`MAX_TRANSITIONS + 1`. -/
theorem run_ok_bounds {oracle : StateMachine S → List S} :
    ∀ fuel : Nat, ∀ m : StateMachine S, ∀ k : Nat,
      m.transition_count + fuel = MAX_TRANSITIONS + 1 →
      m.min_transition_count oracle = .ok k →
      m.transition_count + 1 ≤ k ∧ k ≤ MAX_TRANSITIONS + 1 := by
  intro fuel
  induction fuel with
  | zero =>
    intro m k hc hr
    rw [min_transition_count_guard (by omega)] at hr
    simp at hr
  | succ fuel ih =>
    intro m k hc hr
    have hguard : ¬ m.transition_count > MAX_TRANSITIONS := by omega
    rcases hs : m.step oracle with ⟨o, m'⟩
    have hcc : m'.transition_count = m.transition_count + 1 := by
      have h0 := stepWith_transition_count m (oracle m)
      rw [StateMachine.step] at hs
      rw [hs] at h0
      exact h0
    cases o with
    | some c =>
      have hfst : (m.step oracle).1 = some c := by rw [hs]
      rw [min_transition_count_found hguard hfst] at hr
      have hk : k = c := (Except.ok.inj hr).symm
      have hcnt := step_fst_some_count hfst
      omega
    | none =>
      rw [min_transition_count_cont hguard hs] at hr
      have := ih m' k (by omega) hr
      omega

/-- Iterates whole frontier passes of the loop: `none` when some pass
returned a count along the way. -/
def runPasses (oracle : StateMachine S → List S) : Nat → StateMachine S →
    Option (StateMachine S)
  | 0, m => some m
  | k + 1, m =>
    match m.step oracle with
    | (some _, _) => none
    | (none, m') => runPasses oracle k m'

section PassLemmas

variable {ts : List (S → S)} {init target : S} {oracle : StateMachine S → List S}

theorem runPasses_atStage (hor : FrontierOrder oracle) :
    ∀ k j (m m' : StateMachine S), atStage ts init target j m →
      runPasses oracle k m = some m' → atStage ts init target (j + k) m' := by
  intro k
  induction k with
  | zero =>
    intro j m m' h hr
    rw [runPasses] at hr
    rw [← Option.some.inj hr]
    exact h
  | succ k ih =>
    intro j m m' h hr
    rw [runPasses] at hr
    rcases hs : m.step oracle with ⟨o, m₁⟩
    rw [hs] at hr
    cases o with
    | some c => simp at hr
    | none =>
      simp only at hr
      by_cases hfind : frontierGen ts init j target ∧ target ∉ reachVisited ts init j
      · have h0 := step_some_of_atStage hor h hfind.1 hfind.2
        rw [hs] at h0
        simp at h0
      · have hnf : ¬ frontierGen ts init j target ∨ target ∈ reachVisited ts init j := by
          by_cases h1 : frontierGen ts init j target
          · right
            by_contra h2
            exact hfind ⟨h1, h2⟩
          · exact Or.inl h1
        obtain ⟨_, hstage⟩ := step_none_of_atStage hor h hnf
        rw [hs] at hstage
        have hstage' : atStage ts init target (j + 1) m₁ := hstage
        have := ih (j + 1) m₁ m' hstage' hr
        have harith : j + 1 + k = j + (k + 1) := by omega
        rw [harith] at this
        exact this

/-- Completing `k` frontier passes without returning and then continuing
yields the same overall result, provided the bound has not yet tripped. -/
theorem min_transition_count_runPasses {k : Nat} {m m' : StateMachine S}
    (hr : runPasses oracle k m = some m')
    (hb : m.transition_count + k ≤ MAX_TRANSITIONS + 1) :
    m.min_transition_count oracle = m'.min_transition_count oracle := by
  induction k generalizing m with
  | zero =>
    rw [runPasses] at hr
    rw [← Option.some.inj hr]
  | succ k ih =>
    rw [runPasses] at hr
    rcases hs : m.step oracle with ⟨o, m₁⟩
    rw [hs] at hr
    cases o with
    | some c => simp at hr
    | none =>
      simp only at hr
      have hcc : m₁.transition_count = m.transition_count + 1 := by
        have h0 := stepWith_transition_count m (oracle m)
        rw [StateMachine.step] at hs
        rw [hs] at h0
        exact h0
      rw [min_transition_count_cont (by omega) hs]
      exact ih hr (by omega)

/-- The result of the whole search depends only on the reachability
structure, not on the frontier traversal order. -/
theorem run_deterministic {o₁ o₂ : StateMachine S → List S}
    (h₁ : FrontierOrder o₁) (h₂ : FrontierOrder o₂) :
    (StateMachine.new ts target init).min_transition_count o₁ =
      (StateMachine.new ts target init).min_transition_count o₂ := by
  by_cases hti : target = init
  · by_cases hg : target ∈ genList ts init
    · rw [run_ok_one_of_gen h₁ hg, run_ok_one_of_gen h₂ hg]
    · rw [run_err_of_init_eq h₁ hti hg, run_err_of_init_eq h₂ hti hg]
  · by_cases hre : ∃ k, target ∈ reachWithin ts init k ∧ k ≤ MAX_TRANSITIONS + 1
    · rcases hre with ⟨k₀, hk₀, hkb⟩
      have hex : ∃ k, target ∈ reachWithin ts init k := ⟨k₀, hk₀⟩
      set d := Nat.find hex with hd
      have hd1 : target ∈ reachWithin ts init d := Nat.find_spec hex
      have hdle : d ≤ k₀ := Nat.find_min' hex hk₀
      have hdpos : 1 ≤ d := by
        rcases Nat.eq_zero_or_pos d with h0 | h0
        · exfalso
          have := hd1
          rw [h0, reachWithin, List.mem_singleton] at this
          exact hti this
        · exact h0
      have hd2 : target ∉ reachWithin ts init (d - 1) :=
        Nat.find_min hex (by omega)
      rw [run_ok_of_dist h₁ hti hd1 hd2 (by omega),
        run_ok_of_dist h₂ hti hd1 hd2 (by omega)]
    · have hur : target ∉ reachWithin ts init (MAX_TRANSITIONS + 1) := by
        intro hx
        exact hre ⟨MAX_TRANSITIONS + 1, hx, le_refl _⟩
      rw [run_err_of_unreachable h₁ hur, run_err_of_unreachable h₂ hur]

end PassLemmas

/-! ### The `Machine` orchestration layer (indicator-light side) -/

/-- Embeds the Rust struct `Machine` of `src/day10.rs`.  The `u16` joltage
values are modelled as `Nat`; none of the verified claims exercises
overflow. -/
structure Machine where
  indicator_lights_target : List Bool
  buttons : List (List Nat)
  joltages_target : List Nat

/-- Embeds `Machine::apply_indicator_light_button_press`: toggles the bit
at each index listed in `button`, in order (indices are in bounds for the
machines considered here; the Rust code would panic otherwise). -/
def Machine.apply_indicator_light_button_press (state : List Bool) (button : List Nat) :
    List Bool :=
  button.foldl (fun new_state i => new_state.set i (!(new_state.getD i false))) state

/-- Embeds `Machine::indicator_light_transitions`. -/
def Machine.indicator_light_transitions (m : Machine) : List (List Bool → List Bool) :=
  m.buttons.map (fun button => fun state =>
    Machine.apply_indicator_light_button_press state button)

/-- Embeds `Machine::initial_indicator_light_state`. -/
def Machine.initial_indicator_light_state (m : Machine) : List Bool :=
  List.replicate m.indicator_lights_target.length false

/-- Embeds `Machine::min_indicator_light_button_presses`, with the
`HashSet` iteration order supplied by the oracle. -/
def Machine.min_indicator_light_button_presses
    (oracle : StateMachine (List Bool) → List (List Bool)) (m : Machine) :
    Except String Nat :=
  (StateMachine.new (m.indicator_light_transitions) m.indicator_lights_target
    m.initial_indicator_light_state).min_transition_count oracle

/-! ### Claims about the breadth-first searcher -/

/-- C1: the claim states that whenever the initial state equals the target
state, `min_transition_count` returns `Ok(0)`.  The code has no such
short-circuit: on the machine with one indicator light, target `[.]`
(all-false, equal to the all-false initial state) and one button toggling
light 0, the search instead exhausts the bound and returns the
bound-exceeded error, because after the first pass the initial state is in
`visited_states` and `visit_state` discards visited states before the
target comparison. -/
theorem claim_C1 (oracle : StateMachine (List Bool) → List (List Bool))
    (hor : FrontierOrder oracle) :
    Machine.min_indicator_light_button_presses oracle ⟨[false], [[0]], []⟩ =
      .error boundErrMsg := by
  show (StateMachine.new
      (Machine.indicator_light_transitions ⟨[false], [[0]], []⟩)
      [false]
      (Machine.initial_indicator_light_state ⟨[false], [[0]], []⟩)).min_transition_count
      oracle = .error boundErrMsg
  exact run_err_of_init_eq hor (by rfl) (by decide)

theorem claim_C1_witness :
    FrontierOrder (canonicalOrder (S := List Bool)) ∧
      Machine.min_indicator_light_button_presses canonicalOrder ⟨[false], [[0]], []⟩ =
        .error boundErrMsg :=
  ⟨canonicalOrder_valid, claim_C1 canonicalOrder canonicalOrder_valid⟩

/-- C2: for every finite transition set, initial state, and distinct target
reachable within the step bound, `min_transition_count` returns `Ok(d)`
where `d` is the graph distance: the length of the shortest transition
sequence from the initial state to the target. -/
theorem claim_C2 {S : Type} [DecidableEq S] (oracle : StateMachine S → List S)
    (hor : FrontierOrder oracle) (ts : List (S → S)) (init target : S) (d : Nat)
    (hne : target ≠ init)
    (hex : ∃ l : List (S → S), (∀ t ∈ l, t ∈ ts) ∧ l.length = d ∧ applySeq l init = target)
    (hmin : ∀ l : List (S → S), (∀ t ∈ l, t ∈ ts) → applySeq l init = target →
      d ≤ l.length)
    (hb : d ≤ MAX_TRANSITIONS) :
    (StateMachine.new ts target init).min_transition_count oracle = .ok d := by
  have h1 : target ∈ reachWithin ts init d := by
    rcases hex with ⟨l, hl, hlen, happ⟩
    exact mem_reachWithin_iff.mpr ⟨l, hl, le_of_eq hlen, happ⟩
  have hd1 : 1 ≤ d := by
    rcases hex with ⟨l, hl, hlen, happ⟩
    by_contra h0
    have hd0 : d = 0 := by omega
    have hln : l = [] := List.length_eq_zero.mp (by omega)
    rw [hln] at happ
    simp [applySeq] at happ
    exact hne happ.symm
  have h2 : target ∉ reachWithin ts init (d - 1) := by
    intro hx
    rcases mem_reachWithin_iff.mp hx with ⟨l, hl, hlen, happ⟩
    have := hmin l hl happ
    omega
  exact run_ok_of_dist hor hne h1 h2 (by omega)

theorem applySeq_succ_machine (l : List (Nat → Nat)) (h : ∀ t ∈ l, t ∈ [Nat.succ]) :
    ∀ n, applySeq l n = n + l.length := by
  induction l with
  | nil => intro n; simp [applySeq]
  | cons t rest ih =>
    intro n
    have ht : t = Nat.succ := by
      have := h t (List.mem_cons_self t rest)
      simpa using this
    have hrest : ∀ t' ∈ rest, t' ∈ [Nat.succ] :=
      fun t' ht' => h t' (List.mem_cons_of_mem t ht')
    show applySeq (t :: rest) n = n + (rest.length + 1)
    rw [show applySeq (t :: rest) n = applySeq rest (t n) from rfl, ih hrest (t n), ht]
    omega

theorem claim_C2_witness :
    FrontierOrder (canonicalOrder (S := Nat)) ∧
      ((2 : Nat) ≠ 0) ∧
      (∃ l : List (Nat → Nat), (∀ t ∈ l, t ∈ [Nat.succ]) ∧ l.length = 2 ∧
        applySeq l 0 = 2) ∧
      (∀ l : List (Nat → Nat), (∀ t ∈ l, t ∈ [Nat.succ]) → applySeq l 0 = 2 →
        2 ≤ l.length) ∧
      (2 ≤ MAX_TRANSITIONS) ∧
      (StateMachine.new [Nat.succ] (2 : Nat) 0).min_transition_count canonicalOrder =
        .ok 2 := by
  have hmin : ∀ l : List (Nat → Nat), (∀ t ∈ l, t ∈ [Nat.succ]) → applySeq l 0 = 2 →
      2 ≤ l.length := by
    intro l hl happ
    have := applySeq_succ_machine l hl 0
    omega
  have hex : ∃ l : List (Nat → Nat), (∀ t ∈ l, t ∈ [Nat.succ]) ∧ l.length = 2 ∧
      applySeq l 0 = 2 :=
    ⟨[Nat.succ, Nat.succ], by simp, rfl, rfl⟩
  exact ⟨canonicalOrder_valid, by decide, hex, hmin, by decide,
    claim_C2 canonicalOrder canonicalOrder_valid [Nat.succ] 0 2 2 (by decide) hex hmin
      (by decide)⟩

/-- On the one-button successor machine over ℕ starting at 0, the states
reachable within `k` steps are exactly `0..k`. -/
theorem mem_reachWithin_succ_machine (k x : Nat) :
    x ∈ reachWithin [Nat.succ] 0 k ↔ x ≤ k := by
  induction k generalizing x with
  | zero =>
    rw [reachWithin, List.mem_singleton]
    omega
  | succ k ih =>
    rw [mem_reachWithin_succ]
    constructor
    · rintro (hx | ⟨s, hs, hgen⟩)
      · have := (ih x).mp hx
        omega
      · have hs' := (ih s).mp hs
        have : x = s + 1 := by
          simpa [genList] using hgen
        omega
    · intro hx
      by_cases hxk : x ≤ k
      · exact Or.inl ((ih x).mpr hxk)
      · right
        refine ⟨k, (ih k).mpr (le_refl k), ?_⟩
        have : x = k + 1 := by omega
        simp [genList, this]

/-- C3 counterexample: on the successor machine over ℕ with target
`MAX_TRANSITIONS + 1`, no state generated within the configured maximum
number of passes equals the target — yet the search returns
`Ok(MAX_TRANSITIONS + 1)`, a finite count, instead of the bound-exceeded
error the claim promises. -/
theorem claim_C3_counterexample :
    ((MAX_TRANSITIONS + 1) ∉ reachWithin [Nat.succ] 0 MAX_TRANSITIONS) ∧
      (StateMachine.new [Nat.succ] (MAX_TRANSITIONS + 1) 0).min_transition_count
        canonicalOrder = .ok (MAX_TRANSITIONS + 1) := by
  constructor
  · rw [mem_reachWithin_succ_machine]
    omega
  · apply run_ok_of_dist canonicalOrder_valid
    · intro h
      exact absurd h (by omega)
    · rw [mem_reachWithin_succ_machine]
    · rw [mem_reachWithin_succ_machine]
      omega
    · exact le_refl _

/-- C3 (amended): if no transition sequence of length at most
`MAX_TRANSITIONS + 1` — one more than the configured maximum, because the
bound check precedes the counter increment — reaches the target,
`min_transition_count` terminates (it is a total function) and returns the
bound-exceeded error. -/
theorem claim_C3_amended {S : Type} [DecidableEq S] (oracle : StateMachine S → List S)
    (hor : FrontierOrder oracle) (ts : List (S → S)) (init target : S)
    (h : ∀ l : List (S → S), (∀ t ∈ l, t ∈ ts) → l.length ≤ MAX_TRANSITIONS + 1 →
      applySeq l init ≠ target) :
    (StateMachine.new ts target init).min_transition_count oracle =
      .error boundErrMsg := by
  apply run_err_of_unreachable hor
  intro hx
  rcases mem_reachWithin_iff.mp hx with ⟨l, hl, hlen, happ⟩
  exact h l hl hlen happ

theorem claim_C3_amended_witness :
    FrontierOrder (canonicalOrder (S := Nat)) ∧
      (∀ l : List (Nat → Nat), (∀ t ∈ l, t ∈ ([] : List (Nat → Nat))) →
        l.length ≤ MAX_TRANSITIONS + 1 → applySeq l 0 ≠ 1) ∧
      (StateMachine.new ([] : List (Nat → Nat)) (1 : Nat) 0).min_transition_count
        canonicalOrder = .error boundErrMsg := by
  have h : ∀ l : List (Nat → Nat), (∀ t ∈ l, t ∈ ([] : List (Nat → Nat))) →
      l.length ≤ MAX_TRANSITIONS + 1 → applySeq l 0 ≠ 1 := by
    intro l hl _
    cases l with
    | nil => simp [applySeq]
    | cons t rest => exact absurd (hl t (List.mem_cons_self t rest)) (List.not_mem_nil t)
  exact ⟨canonicalOrder_valid, h,
    claim_C3_amended canonicalOrder canonicalOrder_valid [] 0 1 h⟩

/-- C7: two runs of `min_transition_count` on equal inputs (same
transitions, target, and initial state) return the same result, whatever
`HashSet` iteration orders the two runs see. -/
theorem claim_C7 {S : Type} [DecidableEq S] (o₁ o₂ : StateMachine S → List S)
    (h₁ : FrontierOrder o₁) (h₂ : FrontierOrder o₂)
    (ts : List (S → S)) (target init : S) :
    (StateMachine.new ts target init).min_transition_count o₁ =
      (StateMachine.new ts target init).min_transition_count o₂ :=
  run_deterministic h₁ h₂

theorem claim_C7_witness :
    FrontierOrder (canonicalOrder (S := Nat)) ∧
      FrontierOrder (reversedOrder (S := Nat)) ∧
      (StateMachine.new [Nat.succ] (3 : Nat) 0).min_transition_count canonicalOrder =
        (StateMachine.new [Nat.succ] (3 : Nat) 0).min_transition_count reversedOrder :=
  ⟨canonicalOrder_valid, reversedOrder_valid,
    claim_C7 canonicalOrder reversedOrder canonicalOrder_valid reversedOrder_valid
      [Nat.succ] 3 0⟩

/-- C8: whenever `min_transition_count` has completed `k` full frontier
passes without returning, `known_states` contains exactly the states
reachable from the initial state within at most `k` transition
applications. -/
theorem claim_C8 {S : Type} [DecidableEq S] (oracle : StateMachine S → List S)
    (hor : FrontierOrder oracle) (ts : List (S → S)) (init target : S) (k : Nat)
    (hk : k ≤ MAX_TRANSITIONS + 1) (m : StateMachine S)
    (hr : runPasses oracle k (StateMachine.new ts target init) = some m) :
    ∀ s, s ∈ m.known_states ↔
      ∃ l : List (S → S), (∀ t ∈ l, t ∈ ts) ∧ l.length ≤ k ∧ applySeq l init = s := by
  have hst := runPasses_atStage hor k 0 (StateMachine.new ts target init) m
    (atStage_new ts init target) hr
  rw [zero_add] at hst
  intro s
  rw [hst.2.2.2.1 s, mem_reachWithin_iff]

theorem claim_C8_witness :
    FrontierOrder (canonicalOrder (S := Nat)) ∧
      (0 ≤ MAX_TRANSITIONS + 1) ∧
      (runPasses canonicalOrder 0 (StateMachine.new [Nat.succ] (5 : Nat) 0) =
        some (StateMachine.new [Nat.succ] (5 : Nat) 0)) ∧
      (∀ s, s ∈ (StateMachine.new [Nat.succ] (5 : Nat) 0).known_states ↔
        ∃ l : List (Nat → Nat), (∀ t ∈ l, t ∈ [Nat.succ]) ∧ l.length ≤ 0 ∧
          applySeq l 0 = s) :=
  ⟨canonicalOrder_valid, by omega, rfl,
    claim_C8 canonicalOrder canonicalOrder_valid [Nat.succ] 0 5 0 (by omega)
      (StateMachine.new [Nat.succ] (5 : Nat) 0) rfl⟩

/-- C10: every successful result `Ok(k)` satisfies `1 ≤ k` and
`k ≤ MAX_TRANSITIONS + 1` (the counter is incremented before any new state
is compared with the target, so `Ok(0)` is impossible; the bound check
precedes the increment, so one extra pass runs), and a target first
generated in that extra pass yields exactly `k = MAX_TRANSITIONS + 1`. -/
theorem claim_C10 {S : Type} [DecidableEq S] (oracle : StateMachine S → List S)
    (hor : FrontierOrder oracle) (ts : List (S → S)) (init target : S) :
    (∀ k, (StateMachine.new ts target init).min_transition_count oracle = .ok k →
      1 ≤ k ∧ k ≤ MAX_TRANSITIONS + 1) ∧
    (target ∈ reachWithin ts init (MAX_TRANSITIONS + 1) →
      target ∉ reachWithin ts init MAX_TRANSITIONS →
      (StateMachine.new ts target init).min_transition_count oracle =
        .ok (MAX_TRANSITIONS + 1)) := by
  constructor
  · intro k hr
    have h0 := run_ok_bounds (MAX_TRANSITIONS + 1) (StateMachine.new ts target init) k
      (show (0 : Nat) + (MAX_TRANSITIONS + 1) = MAX_TRANSITIONS + 1 by omega) hr
    have h1 : (0 : Nat) + 1 ≤ k := h0.1
    exact ⟨by omega, h0.2⟩
  · intro hin hout
    have hne : target ≠ init := by
      intro he
      rw [he] at hout
      exact hout (init_mem_reachWithin ts init MAX_TRANSITIONS)
    apply run_ok_of_dist hor hne hin ?_ (le_refl _)
    have harith : MAX_TRANSITIONS + 1 - 1 = MAX_TRANSITIONS := by omega
    rw [harith]
    exact hout

theorem claim_C10_witness :
    FrontierOrder (canonicalOrder (S := Nat)) ∧
      ((∀ k, (StateMachine.new [Nat.succ] (MAX_TRANSITIONS + 1) 0).min_transition_count
          canonicalOrder = .ok k → 1 ≤ k ∧ k ≤ MAX_TRANSITIONS + 1) ∧
        ((MAX_TRANSITIONS + 1) ∈ reachWithin [Nat.succ] 0 (MAX_TRANSITIONS + 1) →
          (MAX_TRANSITIONS + 1) ∉ reachWithin [Nat.succ] 0 MAX_TRANSITIONS →
          (StateMachine.new [Nat.succ] (MAX_TRANSITIONS + 1) 0).min_transition_count
            canonicalOrder = .ok (MAX_TRANSITIONS + 1))) :=
  ⟨canonicalOrder_valid,
    claim_C10 canonicalOrder canonicalOrder_valid [Nat.succ] 0 (MAX_TRANSITIONS + 1)⟩

/-! ### The ILP solver (joltage side) -/

/-- Embeds the Rust struct `ILPSolver` of `src/day10.rs`.  The `u16`
components are modelled as `Nat`; none of the verified claims exercises
overflow, and coefficients are non-negative by type. -/
structure ILPSolver where
  basis_vectors : List (List Nat)
  target : List Nat

/-- Embeds `ILPSolver::assert_dimension` as the Boolean condition checked:
the Rust function `assert_eq!`s every vector's length against the expected
dimension and panics on the first mismatch. -/
def ILPSolver.assert_dimension (vectors : List (List Nat)) (expected_dimension : Nat) :
    Bool :=
  vectors.all (fun v => v.length == expected_dimension)

/-- Embeds `ILPSolver::new`; `none` models the `assert_eq!` panic on a
dimension mismatch, which happens at construction, before any solving
attempt. -/
def ILPSolver.new (basis_vectors : List (List Nat)) (target : List Nat) :
    Option ILPSolver :=
  if ILPSolver.assert_dimension basis_vectors target.length
  then some ⟨basis_vectors, target⟩ else none

/-- Embeds `ILPSolver::basis_matrix` (the matrix as its list of rows):
`DMatrix::from_fn(basis_vectors[0].len(), basis_vectors.len(), |row, col|
basis_vectors[col][row])`.  `none` models the index panics:
`basis_vectors[0]` on an empty collection, and `basis_vectors[col][row]`
when some vector is shorter than the first. -/
def ILPSolver.basis_matrix (s : ILPSolver) : Option (List (List Nat)) :=
  match s.basis_vectors with
  | [] => none
  | v0 :: _ =>
    if s.basis_vectors.all (fun v => decide (v0.length ≤ v.length)) then
      some ((List.range v0.length).map (fun r =>
        s.basis_vectors.map (fun v => v.getD r 0)))
    else none

/-- Embeds `ILPSolver::variables`/`basis_expressions`/`constraints`/
`set_up_problem`: the problem handed to the backend consists of the
variable count (one non-negative integer variable per basis vector, in
input order) and one `(row, rhs)` equality constraint per zipped
(target component, matrix row) pair — `izip!` truncates to the shorter
operand, as `List.zip` does.  The objective (the sum of all variables) is
implicit: the backend minimises the coefficient sum. -/
def ILPSolver.set_up_problem (s : ILPSolver) : Option (Nat × List (List Nat × Nat)) :=
  (s.basis_matrix).map (fun rows =>
    (s.basis_vectors.length, (s.target.zip rows).map (fun p => (p.2, p.1))))

/-- The linear form Σᵢ row[i]·c[i] of one constraint (truncating zip). -/
def dotProd (row c : List Nat) : Nat :=
  ((row.zip c).map (fun p => p.1 * p.2)).sum

/-- A candidate coefficient vector satisfies every equality constraint. -/
def lpFeasible (constraints : List (List Nat × Nat)) (c : List Nat) : Bool :=
  constraints.all (fun ct => dotProd ct.1 c == ct.2)

/-- All coefficient vectors of length `n` with entries at most `B`. -/
def candidates (B : Nat) : Nat → List (List Nat)
  | 0 => [[]]
  | n + 1 => ((List.range (B + 1)).map (fun x => (candidates B n).map (x :: ·))).join

/-- First minimiser of the coefficient sum among a list of vectors. -/
def minSolution : List (List Nat) → Option (List Nat)
  | [] => none
  | c :: rest =>
    match minSolution rest with
    | none => some c
    | some d => if c.sum ≤ d.sum then some c else some d

/-- Modelled from the spec: the integer-programming backend behind
`good_lp`/`CoinCbc` is external to this repository and the spec treats it
as an opaque exact solver — "find non-negative integers `c₁..cₙ` (n =
number of basis vectors) such that `Σ cᵢ · basisᵢ[j] = target[j]` for
every dimension, minimizing `Σ cᵢ`", reporting infeasibility otherwise.
It is modelled as exhaustive search with entries bounded by the largest
right-hand side, which suffices for exact minimisation over all
non-negative integer solutions (`solveBackend_min`). -/
def solveBackend (n : Nat) (constraints : List (List Nat × Nat)) :
    Except String (List Nat) :=
  match minSolution ((candidates ((constraints.map (fun ct => ct.2)).foldr max 0) n).filter
      (lpFeasible constraints)) with
  | some c => .ok c
  | none => .error "infeasible"

/-- Embeds `ILPSolver::solution`; the outer `Option` models the Rust
panics during problem construction (`none`), the inner `Except` the
`Result` of the solve. -/
def ILPSolver.solution (s : ILPSolver) : Option (Except String (List Nat)) :=
  (s.set_up_problem).map (fun p => solveBackend p.1 p.2)

/-- Embeds `Machine::joltage_basis_vectors`. -/
def Machine.joltage_basis_vectors (m : Machine) : List (List Nat) :=
  m.buttons.map (fun button =>
    (List.range m.joltages_target.length).map (fun i => if i ∈ button then 1 else 0))

/-- Embeds `Machine::min_joltage_button_presses`: build the solver (its
construction assertion cannot fire here), solve, and sum the returned
coefficients; errors propagate. -/
def Machine.min_joltage_button_presses (m : Machine) : Option (Except String Nat) :=
  match ILPSolver.new m.joltage_basis_vectors m.joltages_target with
  | none => none
  | some solver => (solver.solution).map (fun r => r.map (fun sol => sol.sum))

/-- The claim's per-dimension combination value `Σᵢ cᵢ · basisᵢ[j]`. -/
def comboAt (bv : List (List Nat)) (c : List Nat) (j : Nat) : Nat :=
  ((bv.zip c).map (fun p => p.1.getD j 0 * p.2)).sum

/-- The claim's notion of a solution: one non-negative entry per basis
vector (non-negativity holds by the `Nat` type), in input order, solving
`Σᵢ cᵢ · basisᵢ[j] = target[j]` for every dimension `j`. -/
def FeasibleFor (bv : List (List Nat)) (t : List Nat) (c : List Nat) : Prop :=
  c.length = bv.length ∧ ∀ j < t.length, comboAt bv c j = t.getD j 0

/-! ### Properties of the modelled backend -/

theorem mem_candidates {B n : Nat} {c : List Nat} :
    c ∈ candidates B n ↔ c.length = n ∧ ∀ x ∈ c, x ≤ B := by
  induction n generalizing c with
  | zero =>
    rw [candidates]
    constructor
    · intro h
      rw [List.mem_singleton.mp h]
      simp
    · rintro ⟨hlen, _⟩
      rw [List.length_eq_zero.mp hlen]
      simp [candidates]
  | succ n ih =>
    rw [candidates]
    simp only [List.mem_join, List.mem_map]
    constructor
    · rintro ⟨l, ⟨x, hx, rfl⟩, hc⟩
      rcases List.mem_map.mp hc with ⟨c', hc', rfl⟩
      rcases ih.mp hc' with ⟨hlen, hbound⟩
      refine ⟨by simp [hlen], ?_⟩
      intro y hy
      rcases List.mem_cons.mp hy with rfl | hy
      · exact Nat.lt_succ_iff.mp (List.mem_range.mp hx)
      · exact hbound y hy
    · rintro ⟨hlen, hbound⟩
      rcases c with _ | ⟨x, c'⟩
      · simp at hlen
      · refine ⟨(candidates B n).map (x :: ·), ⟨x, ?_, rfl⟩, ?_⟩
        · rw [List.mem_range, Nat.lt_succ_iff]
          exact hbound x (List.mem_cons_self x c')
        · apply List.mem_map.mpr
          refine ⟨c', ih.mpr ⟨by simpa using hlen, ?_⟩, rfl⟩
          intro y hy
          exact hbound y (List.mem_cons_of_mem x hy)

theorem minSolution_mem : ∀ {l : List (List Nat)} {c : List Nat},
    minSolution l = some c → c ∈ l := by
  intro l
  induction l with
  | nil => intro c h; simp [minSolution] at h
  | cons a rest ih =>
    intro c h
    rw [minSolution] at h
    rcases hm : minSolution rest with _ | d
    · rw [hm] at h
      simp only at h
      rw [← Option.some.inj h]
      exact List.mem_cons_self a rest
    · rw [hm] at h
      simp only at h
      by_cases hle : a.sum ≤ d.sum
      · rw [if_pos hle] at h
        rw [← Option.some.inj h]
        exact List.mem_cons_self a rest
      · rw [if_neg hle] at h
        rw [← Option.some.inj h]
        exact List.mem_cons_of_mem a (ih hm)

theorem minSolution_eq_none {l : List (List Nat)} :
    minSolution l = none ↔ l = [] := by
  cases l with
  | nil => simp [minSolution]
  | cons a rest =>
    rw [minSolution]
    rcases minSolution rest with _ | d
    · simp
    · show (if a.sum ≤ d.sum then some a else some d) = none ↔ a :: rest = []
      split_ifs <;> simp

theorem minSolution_min : ∀ {l : List (List Nat)} {c : List Nat},
    minSolution l = some c → ∀ d ∈ l, c.sum ≤ d.sum := by
  intro l
  induction l with
  | nil => intro c h; simp [minSolution] at h
  | cons a rest ih =>
    intro c h d hd
    rw [minSolution] at h
    rcases hm : minSolution rest with _ | e
    · rw [hm] at h
      simp only at h
      have hca : c = a := (Option.some.inj h).symm
      have hrest : rest = [] := minSolution_eq_none.mp hm
      subst hca
      subst hrest
      rcases List.mem_singleton.mp hd with rfl
      exact le_refl _
    · rw [hm] at h
      simp only at h
      by_cases hle : a.sum ≤ e.sum
      · rw [if_pos hle] at h
        have hca : c = a := (Option.some.inj h).symm
        subst hca
        rcases List.mem_cons.mp hd with rfl | hd1
        · exact le_refl _
        · exact hle.trans (ih hm d hd1)
      · rw [if_neg hle] at h
        have hce : c = e := (Option.some.inj h).symm
        subst hce
        rcases List.mem_cons.mp hd with rfl | hd1
        · omega
        · exact ih hm d hd1

theorem le_foldr_max {x : Nat} {l : List Nat} (h : x ∈ l) : x ≤ l.foldr max 0 := by
  induction l with
  | nil => simp at h
  | cons a rest ih =>
    rcases List.mem_cons.mp h with rfl | h'
    · exact le_max_left _ _
    · exact (ih h').trans (le_max_right _ _)

theorem assert_dimension_iff {vectors : List (List Nat)} {d : Nat} :
    ILPSolver.assert_dimension vectors d = true ↔ ∀ v ∈ vectors, v.length = d := by
  simp [ILPSolver.assert_dimension]

theorem new_eq_some_iff {bv : List (List Nat)} {t : List Nat} {s : ILPSolver} :
    ILPSolver.new bv t = some s ↔
      (∀ v ∈ bv, v.length = t.length) ∧ s = ⟨bv, t⟩ := by
  rw [ILPSolver.new]
  by_cases h : ILPSolver.assert_dimension bv t.length
  · rw [if_pos h]
    simp only [Option.some.injEq]
    constructor
    · intro hs
      exact ⟨assert_dimension_iff.mp h, hs.symm⟩
    · rintro ⟨_, hs⟩
      exact hs.symm
  · rw [if_neg h]
    constructor
    · intro h0
      simp at h0
    · rintro ⟨hd, _⟩
      exact absurd (assert_dimension_iff.mpr hd) h

theorem new_eq_none_iff {bv : List (List Nat)} {t : List Nat} :
    ILPSolver.new bv t = none ↔ ∃ v ∈ bv, v.length ≠ t.length := by
  rw [ILPSolver.new]
  by_cases h : ILPSolver.assert_dimension bv t.length
  · rw [if_pos h]
    constructor
    · intro h0
      simp at h0
    · rintro ⟨v, hv, hne⟩
      exact absurd (assert_dimension_iff.mp h v hv) hne
  · rw [if_neg h]
    constructor
    · intro _
      by_contra hno
      push_neg at hno
      exact h (assert_dimension_iff.mpr hno)
    · intro _
      rfl

theorem basis_matrix_eq {t v0 : List Nat} {rest : List (List Nat)}
    (hdim : ∀ v ∈ v0 :: rest, v.length = t.length) :
    (ILPSolver.mk (v0 :: rest) t).basis_matrix =
      some ((List.range t.length).map (fun r =>
        (v0 :: rest).map (fun v => v.getD r 0))) := by
  have hv0 : v0.length = t.length := hdim v0 (List.mem_cons_self _ _)
  have hall : (v0 :: rest).all (fun v => decide (v0.length ≤ v.length)) = true := by
    rw [List.all_eq_true]
    intro v hv
    rw [decide_eq_true_eq, hv0, hdim v hv]
  show (if (v0 :: rest).all (fun v => decide (v0.length ≤ v.length)) then
      some ((List.range v0.length).map (fun r =>
        (v0 :: rest).map (fun v => v.getD r 0)))
    else none) = _
  rw [if_pos hall, hv0]

theorem set_up_problem_eq {t v0 : List Nat} {rest : List (List Nat)}
    (hdim : ∀ v ∈ v0 :: rest, v.length = t.length) :
    (ILPSolver.mk (v0 :: rest) t).set_up_problem =
      some ((v0 :: rest).length, (List.range t.length).map (fun j =>
        ((v0 :: rest).map (fun v => v.getD j 0), t.getD j 0))) := by
  rw [ILPSolver.set_up_problem, basis_matrix_eq hdim]
  simp only [Option.map_some']
  congr 1
  congr 1
  apply List.ext_getElem
  · simp
  · intro i h1 h2
    have hil : i < t.length := by
      simp at h1
      omega
    simp only [List.getElem_map, List.getElem_zip, List.getElem_range]
    rw [List.getD_eq_getElem t 0 hil]

theorem comboAt_cons (v : List Nat) (bvs : List (List Nat)) (x : Nat) (cs : List Nat)
    (j : Nat) :
    comboAt (v :: bvs) (x :: cs) j = v.getD j 0 * x + comboAt bvs cs j := by
  simp [comboAt]

theorem dotProd_row_eq_comboAt (bv : List (List Nat)) (c : List Nat) (j : Nat) :
    dotProd (bv.map (fun v => v.getD j 0)) c = comboAt bv c j := by
  rw [dotProd, comboAt, List.zip_map_left, List.map_map]
  rfl

theorem lpFeasible_iff {bv : List (List Nat)} {t : List Nat} {c : List Nat} :
    lpFeasible ((List.range t.length).map (fun j =>
        (bv.map (fun v => v.getD j 0), t.getD j 0))) c = true ↔
      ∀ j < t.length, comboAt bv c j = t.getD j 0 := by
  rw [lpFeasible, List.all_eq_true]
  constructor
  · intro h j hj
    have h0 := h (bv.map (fun v => v.getD j 0), t.getD j 0)
      (List.mem_map.mpr ⟨j, List.mem_range.mpr hj, rfl⟩)
    rw [beq_iff_eq, dotProd_row_eq_comboAt] at h0
    exact h0
  · intro h ct hct
    rcases List.mem_map.mp hct with ⟨j, hj, rfl⟩
    rw [beq_iff_eq, dotProd_row_eq_comboAt]
    exact h j (List.mem_range.mp hj)

/-- Auxiliary for the bounding argument: zero the coefficients of basis
vectors whose first `dim` components all vanish; such coefficients never
contribute to any of the `dim` constraints. -/
def zeroOut (dim : Nat) : List (List Nat) → List Nat → List Nat
  | _, [] => []
  | [], _ :: _ => []
  | v :: bvs, x :: cs =>
    (if ∀ j < dim, v.getD j 0 = 0 then 0 else x) :: zeroOut dim bvs cs

theorem zeroOut_length (dim : Nat) : ∀ (bv : List (List Nat)) (c : List Nat),
    c.length = bv.length → (zeroOut dim bv c).length = bv.length := by
  intro bv
  induction bv with
  | nil =>
    intro c hc
    rw [List.length_eq_zero.mp hc]
    rfl
  | cons v bvs ih =>
    intro c hc
    cases c with
    | nil => simp at hc
    | cons x cs =>
      rw [zeroOut]
      simp only [List.length_cons] at hc ⊢
      rw [ih cs (by omega)]

theorem zeroOut_comboAt (dim : Nat) : ∀ (bv : List (List Nat)) (c : List Nat),
    ∀ j < dim, comboAt bv (zeroOut dim bv c) j = comboAt bv c j := by
  intro bv
  induction bv with
  | nil =>
    intro c j _
    cases c <;> rfl
  | cons v bvs ih =>
    intro c j hj
    cases c with
    | nil => rfl
    | cons x cs =>
      rw [zeroOut, comboAt_cons, comboAt_cons, ih cs j hj]
      by_cases hz : ∀ j' < dim, v.getD j' 0 = 0
      · rw [if_pos hz, hz j hj]
        omega
      · rw [if_neg hz]

theorem zeroOut_sum_le (dim : Nat) : ∀ (bv : List (List Nat)) (c : List Nat),
    (zeroOut dim bv c).sum ≤ c.sum := by
  intro bv
  induction bv with
  | nil =>
    intro c
    cases c with
    | nil => exact le_refl _
    | cons x cs => simp [zeroOut]
  | cons v bvs ih =>
    intro c
    cases c with
    | nil => exact le_refl _
    | cons x cs =>
      rw [zeroOut]
      simp only [List.sum_cons]
      have h1 := ih cs
      by_cases hz : ∀ j' < dim, v.getD j' 0 = 0
      · rw [if_pos hz]
        omega
      · rw [if_neg hz]
        omega

theorem zeroOut_entry_le (dim : Nat) {B : Nat} : ∀ (bv : List (List Nat)) (c : List Nat),
    (∀ j < dim, comboAt bv (zeroOut dim bv c) j ≤ B) →
    ∀ x ∈ zeroOut dim bv c, x ≤ B := by
  intro bv
  induction bv with
  | nil =>
    intro c _ x hx
    cases c with
    | nil => simp [zeroOut] at hx
    | cons y cs => simp [zeroOut] at hx
  | cons v bvs ih =>
    intro c hB x hx
    cases c with
    | nil => simp [zeroOut] at hx
    | cons y cs =>
      rw [zeroOut] at hx
      rcases List.mem_cons.mp hx with rfl | hx'
      · by_cases hz : ∀ j' < dim, v.getD j' 0 = 0
        · rw [if_pos hz]
          exact Nat.zero_le B
        · rw [if_neg hz]
          push_neg at hz
          rcases hz with ⟨j, hj, hvj⟩
          have h1 : 1 ≤ v.getD j 0 := by omega
          have h2 := hB j hj
          rw [zeroOut, comboAt_cons, if_neg (by push_neg; exact ⟨j, hj, hvj⟩)] at h2
          have h3 : y ≤ v.getD j 0 * y := Nat.le_mul_of_pos_left y (by omega)
          omega
      · apply ih cs ?_ x hx'
        intro j hj
        have h2 := hB j hj
        rw [zeroOut, comboAt_cons] at h2
        omega

theorem exists_bounded_feasible {bv : List (List Nat)} {t : List Nat} {c' : List Nat}
    {B : Nat} (hlen : c'.length = bv.length)
    (hfeas : ∀ j < t.length, comboAt bv c' j = t.getD j 0)
    (hB : ∀ j < t.length, t.getD j 0 ≤ B) :
    ∃ c'', c''.length = bv.length ∧ (∀ x ∈ c'', x ≤ B) ∧
      (∀ j < t.length, comboAt bv c'' j = t.getD j 0) ∧ c''.sum ≤ c'.sum := by
  refine ⟨zeroOut t.length bv c', zeroOut_length t.length bv c' hlen, ?_, ?_, ?_⟩
  · apply zeroOut_entry_le t.length bv c'
    intro j hj
    rw [zeroOut_comboAt t.length bv c' j hj, hfeas j hj]
    exact hB j hj
  · intro j hj
    rw [zeroOut_comboAt t.length bv c' j hj]
    exact hfeas j hj
  · exact zeroOut_sum_le t.length bv c'

theorem solveBackend_ok {n : Nat} {constraints : List (List Nat × Nat)} {c : List Nat}
    (h : solveBackend n constraints = .ok c) :
    c ∈ candidates ((constraints.map (fun ct => ct.2)).foldr max 0) n ∧
      lpFeasible constraints c = true ∧
      ∀ d ∈ candidates ((constraints.map (fun ct => ct.2)).foldr max 0) n,
        lpFeasible constraints d = true → c.sum ≤ d.sum := by
  rw [solveBackend] at h
  rcases hm : minSolution ((candidates ((constraints.map (fun ct => ct.2)).foldr max 0)
      n).filter (lpFeasible constraints)) with _ | c0
  · rw [hm] at h
    simp at h
  · rw [hm] at h
    simp only [Except.ok.injEq] at h
    subst h
    have hmem := minSolution_mem hm
    rw [List.mem_filter] at hmem
    refine ⟨hmem.1, hmem.2, ?_⟩
    intro d hd hfd
    exact minSolution_min hm d (List.mem_filter.mpr ⟨hd, hfd⟩)

theorem solveBackend_err {n : Nat} {constraints : List (List Nat × Nat)}
    (h : ∀ c ∈ candidates ((constraints.map (fun ct => ct.2)).foldr max 0) n,
      ¬ lpFeasible constraints c = true) :
    solveBackend n constraints = .error "infeasible" := by
  rw [solveBackend]
  have hfil : (candidates ((constraints.map (fun ct => ct.2)).foldr max 0) n).filter
      (lpFeasible constraints) = [] := by
    rw [List.filter_eq_nil]
    exact h
  rw [hfil]
  rfl

/-! ### Claims about the ILP solver -/

/-- C4: whenever `ILPSolver::solution` returns `Ok(c)` on a solver built by
`ILPSolver::new`, the vector `c` has one non-negative integer entry per
basis vector in input order, satisfies `Σᵢ cᵢ · basisᵢ[j] = target[j]` in
every dimension `j`, and its sum `Σᵢ cᵢ` is minimal among all non-negative
integer solutions of that system.  The good_lp/CoinCbc backend is external
to the repository and modelled from the spec as an exact solver. -/
theorem claim_C4 (bv : List (List Nat)) (t : List Nat) (s : ILPSolver) (c : List Nat)
    (hnew : ILPSolver.new bv t = some s)
    (hsol : s.solution = some (.ok c)) :
    FeasibleFor bv t c ∧ ∀ c', FeasibleFor bv t c' → c.sum ≤ c'.sum := by
  rcases new_eq_some_iff.mp hnew with ⟨hdim, hs⟩
  subst hs
  cases bv with
  | nil =>
    rw [ILPSolver.solution] at hsol
    simp [ILPSolver.set_up_problem, ILPSolver.basis_matrix] at hsol
  | cons v0 rest =>
    rw [ILPSolver.solution, set_up_problem_eq hdim] at hsol
    simp only [Option.map_some', Option.some.injEq] at hsol
    obtain ⟨hmem, hfeas, hmin⟩ := solveBackend_ok hsol
    have hclen : c.length = (v0 :: rest).length := (mem_candidates.mp hmem).1
    have hcfeas : ∀ j < t.length, comboAt (v0 :: rest) c j = t.getD j 0 :=
      lpFeasible_iff.mp hfeas
    have hBmax : ∀ j < t.length, t.getD j 0 ≤
        ((((List.range t.length).map (fun j => ((v0 :: rest).map (fun v => v.getD j 0),
          t.getD j 0))).map (fun ct => ct.2)).foldr max 0) := by
      intro j hj
      apply le_foldr_max
      apply List.mem_map.mpr
      exact ⟨((v0 :: rest).map (fun v => v.getD j 0), t.getD j 0),
        List.mem_map.mpr ⟨j, List.mem_range.mpr hj, rfl⟩, rfl⟩
    refine ⟨⟨hclen, hcfeas⟩, ?_⟩
    rintro c' ⟨hlen', hfeas'⟩
    obtain ⟨c'', hlen'', hbound'', hfeas'', hsum''⟩ :=
      exists_bounded_feasible hlen' hfeas' hBmax
    have hc''mem := mem_candidates.mpr ⟨hlen'', hbound''⟩
    have hc''feas : lpFeasible ((List.range t.length).map (fun j =>
        ((v0 :: rest).map (fun v => v.getD j 0), t.getD j 0))) c'' = true :=
      lpFeasible_iff.mpr hfeas''
    exact (hmin c'' hc''mem hc''feas).trans hsum''

theorem claim_C4_witness :
    (ILPSolver.new [[1,0,0],[0,1,1]] [2,3,3] = some ⟨[[1,0,0],[0,1,1]], [2,3,3]⟩) ∧
    ((ILPSolver.mk [[1,0,0],[0,1,1]] [2,3,3]).solution = some (.ok [2,3])) ∧
    (FeasibleFor [[1,0,0],[0,1,1]] [2,3,3] [2,3] ∧
      ∀ c', FeasibleFor [[1,0,0],[0,1,1]] [2,3,3] c' → ([2,3] : List Nat).sum ≤ c'.sum) := by
  have h1 : ILPSolver.new [[1,0,0],[0,1,1]] [2,3,3] =
      some ⟨[[1,0,0],[0,1,1]], [2,3,3]⟩ := rfl
  have h2 : (ILPSolver.mk [[1,0,0],[0,1,1]] [2,3,3]).solution = some (.ok [2,3]) := by
    rfl
  exact ⟨h1, h2, claim_C4 [[1,0,0],[0,1,1]] [2,3,3] ⟨[[1,0,0],[0,1,1]], [2,3,3]⟩ [2,3] h1 h2⟩

/-- C5: a target vector that is not any non-negative integer combination of
a non-empty basis-vector collection makes `ILPSolver::solution` return an
explicit infeasibility error — never an incorrect or approximated
solution — and `Machine::min_joltage_button_presses` propagates that error.
The good_lp/CoinCbc backend is external to the repository and modelled from
the spec as an exact solver. -/
theorem claim_C5 :
    (∀ (bv : List (List Nat)) (t : List Nat) (s : ILPSolver), bv ≠ [] →
      ILPSolver.new bv t = some s → (¬ ∃ c, FeasibleFor bv t c) →
      s.solution = some (.error "infeasible")) ∧
    (∀ m : Machine, m.buttons ≠ [] →
      (¬ ∃ c, FeasibleFor m.joltage_basis_vectors m.joltages_target c) →
      m.min_joltage_button_presses = some (.error "infeasible")) := by
  have hpart1 : ∀ (bv : List (List Nat)) (t : List Nat) (s : ILPSolver), bv ≠ [] →
      ILPSolver.new bv t = some s → (¬ ∃ c, FeasibleFor bv t c) →
      s.solution = some (.error "infeasible") := by
    intro bv t s hne hnew hinf
    rcases new_eq_some_iff.mp hnew with ⟨hdim, hs⟩
    subst hs
    cases bv with
    | nil => exact absurd rfl hne
    | cons v0 rest =>
      rw [ILPSolver.solution, set_up_problem_eq hdim]
      simp only [Option.map_some', Option.some.injEq]
      apply solveBackend_err
      intro c hc hfeas
      apply hinf
      exact ⟨c, (mem_candidates.mp hc).1, lpFeasible_iff.mp hfeas⟩
  constructor
  · exact hpart1
  · intro m hb hinf
    have hdim : ∀ v ∈ m.joltage_basis_vectors, v.length = m.joltages_target.length := by
      intro v hv
      rcases List.mem_map.mp hv with ⟨button, _, rfl⟩
      simp
    have hnew : ILPSolver.new m.joltage_basis_vectors m.joltages_target =
        some ⟨m.joltage_basis_vectors, m.joltages_target⟩ :=
      new_eq_some_iff.mpr ⟨hdim, rfl⟩
    have hne : m.joltage_basis_vectors ≠ [] := by
      intro h0
      apply hb
      rw [Machine.joltage_basis_vectors] at h0
      exact List.map_eq_nil.mp h0
    have hsol := hpart1 m.joltage_basis_vectors m.joltages_target _ hne hnew hinf
    rw [Machine.min_joltage_button_presses, hnew]
    simp only
    rw [hsol]
    rfl

theorem claim_C5_witness :
    (([[2,0],[0,3]] : List (List Nat)) ≠ []) ∧
    (ILPSolver.new [[2,0],[0,3]] [1,0] = some ⟨[[2,0],[0,3]], [1,0]⟩) ∧
    (¬ ∃ c, FeasibleFor [[2,0],[0,3]] [1,0] c) ∧
    ((ILPSolver.mk [[2,0],[0,3]] [1,0]).solution = some (.error "infeasible")) := by
  have hinf : ¬ ∃ c, FeasibleFor [[2,0],[0,3]] [1,0] c := by
    rintro ⟨c, hlen, hfeas⟩
    have h0 := hfeas 0 (by decide)
    rcases c with _ | ⟨a, c1⟩
    · simp at hlen
    rcases c1 with _ | ⟨b, c2⟩
    · simp at hlen
    rcases c2 with _ | ⟨x, c3⟩
    · simp [comboAt] at h0
    · simp at hlen
  exact ⟨by simp, rfl, hinf,
    claim_C5.1 [[2,0],[0,3]] [1,0] ⟨[[2,0],[0,3]], [1,0]⟩ (by simp) rfl hinf⟩

/-- C6: the construction assertion of `ILPSolver::new` fires exactly when
some basis vector's length differs from the target's length; the check
happens at construction, before any solving attempt, and under the
dimension precondition construction succeeds with the given data. -/
theorem claim_C6 (bv : List (List Nat)) (t : List Nat) :
    (ILPSolver.new bv t = none ↔ ∃ v ∈ bv, v.length ≠ t.length) ∧
    ((∀ v ∈ bv, v.length = t.length) → ILPSolver.new bv t = some ⟨bv, t⟩) := by
  refine ⟨new_eq_none_iff, ?_⟩
  intro hdim
  exact new_eq_some_iff.mpr ⟨hdim, rfl⟩

theorem claim_C6_witness :
    (∀ v ∈ ([[1,2],[3,4]] : List (List Nat)), v.length = ([5,6] : List Nat).length) ∧
      ILPSolver.new [[1,2],[3,4]] [5,6] = some ⟨[[1,2],[3,4]], [5,6]⟩ :=
  ⟨by decide, (claim_C6 [[1,2],[3,4]] [5,6]).2 (by decide)⟩

/-- C9: `ILPSolver::new` accepts an empty basis-vector collection (the
dimension assertion is vacuously satisfied), but `ILPSolver::solution` then
panics for every target — `basis_vectors[0]` in `basis_matrix` is an
out-of-bounds index — instead of returning an infeasibility error or, for
an all-zero target, the empty feasible solution. -/
theorem claim_C9 (t : List Nat) :
    ILPSolver.new [] t = some ⟨[], t⟩ ∧ (ILPSolver.mk [] t).solution = none :=
  ⟨rfl, rfl⟩

end Day10
